import Mathlib

/-!
Verification of the supersplat-viewer CPU core: a shallow embedding of the
point-marker annotation store (`src/point-marker.ts`), the ray picker
(`src/picker.ts`), the CPU depth-filtering pass of the centers overlay
(`src/centers-overlay.ts`), and the PCA normal estimator.

Modelling conventions:
- JavaScript numbers are modelled as exact rationals (`ℚ`).
- Euclidean distances are represented by their squares: every comparison
  `dist(a,b) <= r` in the source is embedded as `0 ≤ r ∧ distSq a b ≤ r ^ 2`,
  which is equivalent since `dist` is nonnegative and `Real.sqrt` is monotone.
  Comparisons between two distances (`d1 < d2`) are embedded on the squares,
  again equivalent by monotonicity.
- A PlayCanvas `Mat4` is its column-major `data` array, modelled as a function
  `ℕ → ℚ`; `data[c*4+r]` holds row `r`, column `c`.
- `Infinity` sentinels become `Option` (`none` = no value / `Infinity`).
-/

/-- World/local space 3-vector (PlayCanvas `Vec3`), with exact coordinates. -/
structure Vec3q where
  x : ℚ
  y : ℚ
  z : ℚ
deriving DecidableEq

/-- Componentwise difference, `Vec3.sub2`. -/
def Vec3q.sub (a b : Vec3q) : Vec3q := ⟨a.x - b.x, a.y - b.y, a.z - b.z⟩

/-- Dot product, `Vec3.dot`. -/
def Vec3q.dot (a b : Vec3q) : ℚ := a.x * b.x + a.y * b.y + a.z * b.z

/-- Squared Euclidean distance; stands in for `Vec3.distance` (see header). -/
def Vec3q.distSq (a b : Vec3q) : ℚ :=
  (a.x - b.x) ^ 2 + (a.y - b.y) ^ 2 + (a.z - b.z) ^ 2

/-- The vector `a + s * d` (PlayCanvas `copy(a).addScaled(d, s)`). -/
def Vec3q.addScaled (a d : Vec3q) (s : ℚ) : Vec3q :=
  ⟨a.x + s * d.x, a.y + s * d.y, a.z + s * d.z⟩

/-- Column-major 4x4 matrix data array (PlayCanvas `Mat4.data`). -/
def Mat4q : Type := ℕ → ℚ

/-- Mat4.transformPoint: affine action on `(x, y, z, 1)`, dropping `w`. -/
def Mat4q.transformPoint (m : Mat4q) (p : Vec3q) : Vec3q :=
  ⟨m 0 * p.x + m 4 * p.y + m 8 * p.z + m 12,
   m 1 * p.x + m 5 * p.y + m 9 * p.z + m 13,
   m 2 * p.x + m 6 * p.y + m 10 * p.z + m 14⟩

/-- Mat4.mul2: matrix product in column-major storage
(`data[c*4+r]` of the product is row `r` of `a` times column `c` of `b`). -/
def Mat4q.mul2 (a b : Mat4q) : Mat4q := fun i =>
  let r := i % 4
  let c := i / 4
  a (0 + r) * b (c * 4 + 0) + a (4 + r) * b (c * 4 + 1) +
    a (8 + r) * b (c * 4 + 2) + a (12 + r) * b (c * 4 + 3)

/-- RGB color record (PlayCanvas `Color`), only carried through, never read. -/
structure Colorq where
  r : ℚ
  g : ℚ
  b : ℚ
deriving DecidableEq

namespace PointMarker

/-- One annotation entry (`MarkedPoint` in `point-marker.ts`). -/
structure MarkedPoint where
  index : ℕ
  position : Vec3q
  colorId : ℕ
  originalColor : Colorq
deriving DecidableEq

/-- The mutable fields of class `PointMarker` that the annotation-store
operations read and write (sphere rendering state is external). -/
structure State where
  selectedPoints : List MarkedPoint
  nextColorId : ℕ
  hoveredListItemIndex : Option ℕ
deriving DecidableEq

/-- setHoveredListItem: records the hovered list entry (sphere resizing is
external rendering and not modelled). -/
def setHoveredListItem (s : State) (i : Option ℕ) : State :=
  { s with hoveredListItemIndex := i }

/-- selectPoint: no-op returning false when the point index is already
selected; otherwise appends a new MarkedPoint carrying the next colorId. -/
def selectPoint (s : State) (index : ℕ) (position : Vec3q)
    (originalColor : Colorq) : Bool × State :=
  if s.selectedPoints.any (fun p => p.index == index) then
    (false, s)
  else
    let colorId := s.nextColorId
    (true,
      { s with
        selectedPoints :=
          s.selectedPoints ++ [⟨index, position, colorId, originalColor⟩],
        nextColorId := s.nextColorId + 1 })

/-- deletePointByIndex: range-checked removal at a list index, with the
hover-index adjustment performed by the source before the splice. -/
def deletePointByIndex (s : State) (arrayIndex : ℕ) : Bool × State :=
  if arrayIndex < s.selectedPoints.length then
    let s1 :=
      if s.hoveredListItemIndex = some arrayIndex then
        setHoveredListItem s none
      else
        match s.hoveredListItemIndex with
        | some hi => if arrayIndex < hi then setHoveredListItem s (some (hi - 1)) else s
        | none => s
    (true, { s1 with selectedPoints := s1.selectedPoints.eraseIdx arrayIndex })
  else
    (false, s)

/-- clearAll: empties the list and resets the color counter and hover state. -/
def clearAll (_s : State) : State :=
  { selectedPoints := [], nextColorId := 0, hoveredListItemIndex := none }

/-- reorderPoints: moves one element, interpreting `toIndex` as an insertion
point; the negative-index guards of the source are subsumed by `ℕ`. -/
def reorderPoints (s : State) (fromIndex toIndex : ℕ) : State :=
  if fromIndex = toIndex then s
  else if hf : fromIndex < s.selectedPoints.length then
    if toIndex ≤ s.selectedPoints.length then
      let targetIndex := if fromIndex < toIndex then toIndex - 1 else toIndex
      let movedItem := s.selectedPoints.get ⟨fromIndex, hf⟩
      let pts :=
        (s.selectedPoints.eraseIdx fromIndex).insertIdx targetIndex movedItem
      let newHover :=
        match s.hoveredListItemIndex with
        | none => none
        | some hi =>
          if hi = fromIndex then some targetIndex
          else if fromIndex < hi ∧ hi ≤ targetIndex then some (hi - 1)
          else if hi < fromIndex ∧ targetIndex ≤ hi then some (hi + 1)
          else some hi
      { s with selectedPoints := pts, hoveredListItemIndex := newHover }
    else s
  else s

/-- exportToJSON: one `[x, y, z]` triple per marked point, in display order. -/
def exportToJSON (s : State) : List (List ℚ) :=
  s.selectedPoints.map (fun p => [p.position.x, p.position.y, p.position.z])

/-- Squared import tolerance: the source compares `distance <= 0.001`. -/
def tolSq : ℚ := (1 / 1000) ^ 2

/-- The body of the `importFromJSON` loop for one JSON entry: skip malformed
entries (fewer than 3 elements), skip unresolved or out-of-tolerance matches,
otherwise select and count on success. -/
def importStep (findPointCallback : ℚ → ℚ → ℚ → Option (ℕ × Vec3q × Colorq))
    (acc : ℕ × State) (pointData : List ℚ) : ℕ × State :=
  match pointData with
  | x :: y :: z :: _ =>
    match findPointCallback x y z with
    | some (idx, pos, col) =>
      if Vec3q.distSq pos ⟨x, y, z⟩ ≤ tolSq then
        let r := selectPoint acc.2 idx pos col
        (if r.1 then acc.1 + 1 else acc.1, r.2)
      else acc
    | none => acc
  | _ => acc

/-- importFromJSON: clears the store, then folds `importStep` over the input,
returning the number of points actually restored with the final state. -/
def importFromJSON (s : State)
    (jsonData : List (List ℚ))
    (findPointCallback : ℚ → ℚ → ℚ → Option (ℕ × Vec3q × Colorq)) :
    ℕ × State :=
  jsonData.foldl (importStep findPointCallback) (0, clearAll s)

end PointMarker

namespace PointMarker

/-- Splicing an element back into the slot it was removed from restores the
original list. -/
theorem insertIdx_eraseIdx_getElem {α : Type} (l : List α) :
    ∀ (i : ℕ) (h : i < l.length), (l.eraseIdx i).insertIdx i l[i] = l := by
  induction l with
  | nil => intro i h; simp at h
  | cons a l ih =>
    intro i h
    cases i with
    | zero => simp [List.eraseIdx]
    | succ n =>
      simp only [List.eraseIdx_cons_succ, List.getElem_cons_succ,
        List.insertIdx_succ_cons]
      rw [ih n (by simpa using h)]

/-- reorderPoints with equal indices is the identity. -/
theorem reorderPoints_self (s : State) (i : ℕ) : reorderPoints s i i = s := by
  simp [reorderPoints]

/-- reorderPoints to the next insertion slot is the identity. -/
theorem reorderPoints_succ (s : State) (i : ℕ)
    (hf : i < s.selectedPoints.length) : reorderPoints s i (i + 1) = s := by
  have hne : i ≠ i + 1 := by omega
  have ht : i + 1 ≤ s.selectedPoints.length := hf
  simp only [reorderPoints, if_neg hne, dif_pos hf, if_pos ht]
  have htarget : (if i < i + 1 then i + 1 - 1 else i + 1) = i := by
    simp
  rw [htarget]
  have hpts : (s.selectedPoints.eraseIdx i).insertIdx i
      (s.selectedPoints.get ⟨i, hf⟩) = s.selectedPoints := by
    simpa using insertIdx_eraseIdx_getElem s.selectedPoints i hf
  rw [hpts]
  have hhov : (match s.hoveredListItemIndex with
      | none => none
      | some hi =>
        if hi = i then some i
        else if i < hi ∧ hi ≤ i then some (hi - 1)
        else if hi < i ∧ i ≤ hi then some (hi + 1)
        else some hi) = s.hoveredListItemIndex := by
    cases h : s.hoveredListItemIndex with
    | none => rfl
    | some hi =>
      by_cases hhi : hi = i
      · simp [hhi]
      · have h1 : ¬(i < hi ∧ hi ≤ i) := by omega
        have h2 : ¬(hi < i ∧ i ≤ hi) := by omega
        simp [hhi, h1, h2]
  rw [hhov]

/-- C5: `reorderPoints` interprets `toIndex` as an insertion point in
`0..length` inclusive: the moved element lands at `toIndex - 1` when
`fromIndex < toIndex` and at `toIndex` otherwise, immediately before the
element that was at `toIndex` pre-move; the other elements keep their
relative order (erasing the moved element from the result gives the original
list with the moved element erased); `reorder(i, i)` and `reorder(i, i+1)`
leave the order unchanged, and following either with a reorder of the element
from its resulting position back to `i` restores the original order. -/
theorem reorderPoints_insertion_point_spec (s : State) (fromIndex toIndex : ℕ)
    (hf : fromIndex < s.selectedPoints.length)
    (ht : toIndex ≤ s.selectedPoints.length) :
    ((reorderPoints s fromIndex toIndex).selectedPoints.length =
        s.selectedPoints.length ∧
      (reorderPoints s fromIndex toIndex).selectedPoints[
          if fromIndex < toIndex then toIndex - 1 else toIndex]? =
        s.selectedPoints[fromIndex]? ∧
      (reorderPoints s fromIndex toIndex).selectedPoints.eraseIdx
          (if fromIndex < toIndex then toIndex - 1 else toIndex) =
        s.selectedPoints.eraseIdx fromIndex ∧
      (fromIndex ≠ toIndex → toIndex < s.selectedPoints.length →
        (reorderPoints s fromIndex toIndex).selectedPoints[
            (if fromIndex < toIndex then toIndex - 1 else toIndex) + 1]? =
          s.selectedPoints[toIndex]?)) ∧
    reorderPoints s fromIndex fromIndex = s ∧
    reorderPoints s fromIndex (fromIndex + 1) = s ∧
    reorderPoints (reorderPoints s fromIndex fromIndex) fromIndex fromIndex
      = s ∧
    reorderPoints (reorderPoints s fromIndex (fromIndex + 1)) fromIndex
      fromIndex = s := by
  refine ⟨?_, reorderPoints_self s fromIndex, reorderPoints_succ s fromIndex hf,
    by rw [reorderPoints_self, reorderPoints_self],
    by rw [reorderPoints_succ s fromIndex hf, reorderPoints_self]⟩
  by_cases hne : fromIndex = toIndex
  · subst hne
    rw [reorderPoints_self]
    have hlt : ¬(fromIndex < fromIndex) := lt_irrefl _
    refine ⟨rfl, by rw [if_neg hlt], by rw [if_neg hlt], fun h _ => absurd rfl h⟩
  · set l := s.selectedPoints with hl
    set t := if fromIndex < toIndex then toIndex - 1 else toIndex with htdef
    have hres : (reorderPoints s fromIndex toIndex).selectedPoints =
        (l.eraseIdx fromIndex).insertIdx t (l.get ⟨fromIndex, hf⟩) := by
      simp only [reorderPoints, if_neg hne, dif_pos hf, if_pos ht]
    have hlenE : (l.eraseIdx fromIndex).length = l.length - 1 :=
      List.length_eraseIdx_of_lt hf
    have htle : t ≤ (l.eraseIdx fromIndex).length := by
      rw [hlenE, htdef]
      split <;> omega
    have hlen : ((l.eraseIdx fromIndex).insertIdx t
        (l.get ⟨fromIndex, hf⟩)).length = l.length := by
      rw [List.length_insertIdx t _ htle, hlenE]
      omega
    refine ⟨by rw [hres, hlen], ?_, ?_, ?_⟩
    · rw [hres]
      have h1 : ((l.eraseIdx fromIndex).insertIdx t
          (l.get ⟨fromIndex, hf⟩))[t] = l.get ⟨fromIndex, hf⟩ :=
        List.getElem_insertIdx_self _ _ t htle
      have htlt : t < ((l.eraseIdx fromIndex).insertIdx t
          (l.get ⟨fromIndex, hf⟩)).length := by
        rw [hlen]
        rw [hlenE] at htle
        omega
      rw [List.getElem?_eq_getElem htlt, h1, List.getElem?_eq_getElem hf]
      rfl
    · rw [hres, List.eraseIdx_insertIdx]
    · intro _ htlt2
      rw [hres]
      have hk : t + 0 < (l.eraseIdx fromIndex).length := by
        rw [hlenE, htdef]
        split <;> omega
      have h1 : ((l.eraseIdx fromIndex).insertIdx t
          (l.get ⟨fromIndex, hf⟩))[t + 0 + 1] = (l.eraseIdx fromIndex)[t + 0] :=
        List.getElem_insertIdx_add_succ _ _ t 0 hk
      have h2 : (l.eraseIdx fromIndex)[t + 0] = l[toIndex] := by
        rcases Nat.lt_or_ge fromIndex toIndex with hcase | hcase
        · have htv : t = toIndex - 1 := by rw [htdef]; simp [hcase]
          have hge : fromIndex ≤ t + 0 := by omega
          rw [List.getElem_eraseIdx_of_ge _ _ _ hk hge]
          congr 1 <;> omega
        · have hlt' : toIndex < fromIndex := by omega
          have htv : t = toIndex := by rw [htdef]; simp [Nat.not_lt.mpr hcase]
          rw [List.getElem_eraseIdx_of_lt _ _ _ hk (by omega)]
          congr 1 <;> omega
      have hb : t + 0 + 1 < ((l.eraseIdx fromIndex).insertIdx t
          (l.get ⟨fromIndex, hf⟩)).length := by
        rw [hlen]
        rw [hlenE] at hk
        omega
      rw [List.getElem?_eq_getElem hb, List.getElem?_eq_getElem htlt2]
      rw [h1, h2]

end PointMarker

namespace PointMarker

/-- One import step keeps the restored count equal to the store size. -/
theorem importStep_count_inv (cb : ℚ → ℚ → ℚ → Option (ℕ × Vec3q × Colorq))
    (acc : ℕ × State) (t : List ℚ) (h : acc.1 = acc.2.selectedPoints.length) :
    (importStep cb acc t).1 = (importStep cb acc t).2.selectedPoints.length := by
  rcases t with _ | ⟨x, t⟩
  · simpa [importStep] using h
  rcases t with _ | ⟨y, t⟩
  · simpa [importStep] using h
  rcases t with _ | ⟨z, t⟩
  · simpa [importStep] using h
  rcases hcb : cb x y z with _ | ⟨idx, pos, col⟩
  · simpa [importStep, hcb] using h
  simp only [importStep, hcb]
  split
  · simp only [selectPoint]
    split
    · simpa using h
    · simp [h]
  · exact h

/-- Folding import steps keeps the restored count equal to the store size. -/
theorem foldl_importStep_count_inv
    (cb : ℚ → ℚ → ℚ → Option (ℕ × Vec3q × Colorq)) :
    ∀ (l : List (List ℚ)) (acc : ℕ × State),
      acc.1 = acc.2.selectedPoints.length →
      (l.foldl (importStep cb) acc).1 =
        (l.foldl (importStep cb) acc).2.selectedPoints.length := by
  intro l
  induction l with
  | nil => intro acc h; simpa using h
  | cons t l ih =>
    intro acc h
    simpa [List.foldl] using ih (importStep cb acc t) (importStep_count_inv cb acc t h)

/-- C10: the count returned by `importFromJSON` equals the number of marked
points in the store when the call completes; the store is cleared before any
entry is processed (the result does not depend on the prior store contents);
and two input triples that resolve to the same point id contribute one stored
point and a count of one. -/
theorem importFromJSON_count_spec (s t : State) (jsonData : List (List ℚ))
    (cb : ℚ → ℚ → ℚ → Option (ℕ × Vec3q × Colorq)) :
    (importFromJSON s jsonData cb).1 =
      (importFromJSON s jsonData cb).2.selectedPoints.length ∧
    importFromJSON s jsonData cb = importFromJSON t jsonData cb ∧
    (∀ x y z xg yg zg idx pos posg col colg,
      cb x y z = some (idx, pos, col) →
      cb xg yg zg = some (idx, posg, colg) →
      Vec3q.distSq pos ⟨x, y, z⟩ ≤ tolSq →
      Vec3q.distSq posg ⟨xg, yg, zg⟩ ≤ tolSq →
      (importFromJSON s [[x, y, z], [xg, yg, zg]] cb).1 = 1 ∧
      (importFromJSON s [[x, y, z], [xg, yg, zg]] cb).2.selectedPoints.length
        = 1) := by
  refine ⟨foldl_importStep_count_inv cb jsonData (0, clearAll s) (by simp [clearAll]),
    rfl, ?_⟩
  intro x y z xg yg zg idx pos posg col colg hcb1 hcb2 htol1 htol2
  have e1 : importStep cb (0, clearAll s) [x, y, z] =
      (1, ⟨[⟨idx, pos, 0, col⟩], 1, none⟩) := by
    simp [importStep, hcb1, clearAll, if_pos htol1, selectPoint]
  have e2 : importStep cb (1, (⟨[⟨idx, pos, 0, col⟩], 1, none⟩ : State))
      [xg, yg, zg] = (1, ⟨[⟨idx, pos, 0, col⟩], 1, none⟩) := by
    simp [importStep, hcb2, if_pos htol2, selectPoint]
  have : importFromJSON s [[x, y, z], [xg, yg, zg]] cb =
      (1, ⟨[⟨idx, pos, 0, col⟩], 1, none⟩) := by
    simp only [importFromJSON, List.foldl, e1, e2]
  simp [this]

/-- Constant resolver used for concrete import runs: every query resolves to
point id 0 at the origin. -/
def cbDup : ℚ → ℚ → ℚ → Option (ℕ × Vec3q × Colorq) :=
  fun _ _ _ => some (0, ⟨0, 0, 0⟩, ⟨0, 0, 0⟩)

/-- Witness for C10 at a concrete store and input list. -/
theorem importFromJSON_count_spec_witness :
    (importFromJSON ⟨[], 0, none⟩ [[0, 0, 0], [0, 0, 1/2000]] cbDup).1 = 1 ∧
    (importFromJSON ⟨[], 0, none⟩
        [[0, 0, 0], [0, 0, 1/2000]] cbDup).2.selectedPoints.length = 1 :=
  (importFromJSON_count_spec ⟨[], 0, none⟩ ⟨[], 0, none⟩ [] cbDup).2.2
    0 0 0 0 0 (1/2000) 0 ⟨0, 0, 0⟩ ⟨0, 0, 0⟩ ⟨0, 0, 0⟩ ⟨0, 0, 0⟩
    rfl rfl (by norm_num [Vec3q.distSq, tolSq])
    (by norm_num [Vec3q.distSq, tolSq])

end PointMarker

namespace PointMarker

/-- An annotation-store operation from the claim's scope: a `selectPoint`
call or a `deletePointByIndex` call (no intervening `clearAll`). -/
inductive PMOp where
  | select (index : ℕ) (position : Vec3q) (color : Colorq)
  | deleteAt (arrayIndex : ℕ)

/-- State transition of one operation (the returned Bool is dropped). -/
def applyOp (s : State) : PMOp → State
  | .select i p c => (selectPoint s i p c).2
  | .deleteAt i => (deletePointByIndex s i).2

/-- Color-identity events observable in one operation: a colorId assigned by
a successful selection, or freed by a successful deletion. -/
inductive PMEvent where
  | assigned (c : ℕ)
  | freed (c : ℕ)
deriving DecidableEq

/-- The events of a single operation run in state `s`. -/
def opEvents (s : State) : PMOp → List PMEvent
  | .select i p c =>
    if (selectPoint s i p c).1 then [.assigned s.nextColorId] else []
  | .deleteAt i =>
    match s.selectedPoints[i]? with
    | some p => [.freed p.colorId]
    | none => []

/-- All color-identity events of an operation sequence. -/
def traceEvents : State → List PMOp → List PMEvent
  | _, [] => []
  | s, op :: ops => opEvents s op ++ traceEvents (applyOp s op) ops

/-- Store invariant: every assigned colorId is below the counter. It holds
for every store reachable from a fresh or cleared one. -/
def ColorInv (s : State) : Prop :=
  ∀ p ∈ s.selectedPoints, p.colorId < s.nextColorId

/-- selectPoint either fails leaving the state unchanged, or appends the next
colorId and bumps the counter. -/
theorem selectPoint_fields (s : State) (i : ℕ) (p : Vec3q) (c : Colorq) :
    ((selectPoint s i p c).1 = false ∧ (selectPoint s i p c).2 = s) ∨
    ((selectPoint s i p c).1 = true ∧
      (selectPoint s i p c).2 =
        { s with
          selectedPoints := s.selectedPoints ++ [⟨i, p, s.nextColorId, c⟩],
          nextColorId := s.nextColorId + 1 }) := by
  simp only [selectPoint]
  split
  · exact Or.inl ⟨rfl, rfl⟩
  · exact Or.inr ⟨rfl, rfl⟩

/-- deletePointByIndex keeps the counter and either erases the indexed entry
or (out of range) leaves the list unchanged. -/
theorem deletePointByIndex_fields (s : State) (i : ℕ) :
    (deletePointByIndex s i).2.nextColorId = s.nextColorId ∧
    ((deletePointByIndex s i).2.selectedPoints = s.selectedPoints.eraseIdx i ∨
      (deletePointByIndex s i).2.selectedPoints = s.selectedPoints) := by
  by_cases hlen : i < s.selectedPoints.length
  · by_cases hhov : s.hoveredListItemIndex = some i
    · simp [deletePointByIndex, hlen, hhov, setHoveredListItem]
    · cases hh : s.hoveredListItemIndex with
      | none => simp [deletePointByIndex, hlen, hhov, hh]
      | some hi =>
        have hne : ¬(hi = i) := by
          intro he
          exact hhov (by rw [hh, he])
        by_cases hcmp : i < hi
        · simp [deletePointByIndex, hlen, hh, hne, hcmp, setHoveredListItem]
        · simp [deletePointByIndex, hlen, hh, hne, hcmp]
  · simp [deletePointByIndex, hlen]

/-- The color counter never decreases. -/
theorem nextColorId_mono (s : State) (op : PMOp) :
    s.nextColorId ≤ (applyOp s op).nextColorId := by
  cases op with
  | select i p c =>
    rcases selectPoint_fields s i p c with ⟨_, h2⟩ | ⟨_, h2⟩ <;>
      simp [applyOp, h2]
  | deleteAt i =>
    have := (deletePointByIndex_fields s i).1
    simp [applyOp, this]

/-- The store invariant is preserved by every operation. -/
theorem colorInv_applyOp (s : State) (op : PMOp) (h : ColorInv s) :
    ColorInv (applyOp s op) := by
  cases op with
  | select i p c =>
    rcases selectPoint_fields s i p c with ⟨_, h2⟩ | ⟨_, h2⟩
    · simpa [applyOp, h2] using h
    · intro q hq
      simp only [applyOp, h2, List.mem_append, List.mem_singleton] at hq ⊢
      rcases hq with hq | hq
      · exact Nat.lt_succ_of_lt (h q hq)
      · subst hq
        exact Nat.lt_succ_self _
  | deleteAt i =>
    intro q hq
    obtain ⟨hnext, hlist⟩ := deletePointByIndex_fields s i
    simp only [applyOp] at hq ⊢
    rw [hnext]
    rcases hlist with hl | hl <;> rw [hl] at hq
    · exact h q (List.mem_of_mem_eraseIdx hq)
    · exact h q hq

/-- Every event value of a single operation is below the counter after it. -/
theorem opEvents_val_lt (s : State) (op : PMOp) (h : ColorInv s) :
    ∀ e ∈ opEvents s op,
      (∀ c, e = .assigned c → c < (applyOp s op).nextColorId) ∧
      (∀ c, e = .freed c → c < (applyOp s op).nextColorId) := by
  cases op with
  | select i p c =>
    intro e he
    simp only [opEvents] at he
    rcases selectPoint_fields s i p c with ⟨h1, _⟩ | ⟨h1, h2⟩
    · rw [h1] at he
      simp at he
    · rw [h1] at he
      simp only [if_true, List.mem_singleton] at he
      subst he
      refine ⟨fun cv hcv => ?_, fun cv hcv => by cases hcv⟩
      cases hcv
      simp [applyOp, h2]
  | deleteAt i =>
    intro e he
    simp only [opEvents] at he
    cases hq : s.selectedPoints[i]? with
    | none => rw [hq] at he; simp at he
    | some p =>
      rw [hq] at he
      simp only [List.mem_singleton] at he
      subst he
      have hlt : p.colorId < s.nextColorId :=
        h p (List.getElem?_mem hq)
      have hmono := nextColorId_mono s (.deleteAt i)
      refine ⟨fun cv hcv => ?_, fun cv hcv => ?_⟩
      · cases hcv
      · cases hcv
        simp only [applyOp] at hmono ⊢
        omega

/-- All colorIds assigned along a run are at least the starting counter. -/
theorem assigned_ge_nextColorId :
    ∀ (ops : List PMOp) (s : State), ColorInv s →
      ∀ c, PMEvent.assigned c ∈ traceEvents s ops → s.nextColorId ≤ c := by
  intro ops
  induction ops with
  | nil => intro s _ c hc; simp [traceEvents] at hc
  | cons op ops ih =>
    intro s hInv c hc
    simp only [traceEvents, List.mem_append] at hc
    rcases hc with hc | hc
    · cases op with
      | select i p cl =>
        simp only [opEvents] at hc
        split at hc
        · simp only [List.mem_singleton] at hc
          cases hc
          exact le_refl _
        · simp at hc
      | deleteAt i =>
        simp only [opEvents] at hc
        rcases hq : s.selectedPoints[i]? with _ | p <;> rw [hq] at hc <;> simp at hc
    · have := ih (applyOp s op) (colorInv_applyOp s op hInv) c hc
      exact le_trans (nextColorId_mono s op) this

/-- C4: `selectPoint` on an already-present point id returns `false` with the
state (hence list length and contents) unchanged; and along any sequence of
select/delete operations with no intervening `clearAll`, colorIds assigned to
distinct points are strictly increasing in selection order, and a colorId
freed by a deletion is never assigned afterwards. -/
theorem selectPoint_colorId_spec (s : State) (ops : List PMOp)
    (hInv : ColorInv s) :
    (∀ idx pos col, (∃ p ∈ s.selectedPoints, p.index = idx) →
      selectPoint s idx pos col = (false, s)) ∧
    List.Pairwise
      (fun e1 e2 =>
        (∀ c cg, e1 = PMEvent.assigned c → e2 = PMEvent.assigned cg → c < cg) ∧
        (∀ c, e1 = PMEvent.freed c → e2 ≠ PMEvent.assigned c))
      (traceEvents s ops) := by
  constructor
  · intro idx pos col hex
    rcases hex with ⟨p, hp, hpidx⟩
    have hany : s.selectedPoints.any (fun p => p.index == idx) = true := by
      rw [List.any_eq_true]
      exact ⟨p, hp, by simp [hpidx]⟩
    simp [selectPoint, hany]
  · induction ops generalizing s with
    | nil => simp [traceEvents]
    | cons op ops ih =>
      simp only [traceEvents]
      rw [List.pairwise_append]
      refine ⟨?_, ih (applyOp s op) (colorInv_applyOp s op hInv), ?_⟩
      · cases op with
        | select i p c =>
          simp only [opEvents]
          split <;> simp
        | deleteAt i =>
          simp only [opEvents]
          rcases hq : s.selectedPoints[i]? with _ | p <;> simp
      · intro e1 he1 e2 he2
        have hval := opEvents_val_lt s op hInv e1 he1
        constructor
        · intro c cg hc hcg
          have hge : (applyOp s op).nextColorId ≤ cg := by
            subst hcg
            exact assigned_ge_nextColorId ops (applyOp s op)
              (colorInv_applyOp s op hInv) cg he2
          have := hval.1 c hc
          omega
        · intro c hc hcg
          have hge : (applyOp s op).nextColorId ≤ c := by
            rw [hcg] at he2
            exact assigned_ge_nextColorId ops (applyOp s op)
              (colorInv_applyOp s op hInv) c he2
          have := hval.2 c hc
          omega

/-- Witness for C4 at a concrete store and operation sequence. -/
theorem selectPoint_colorId_spec_witness :
    ColorInv ⟨[], 0, none⟩ ∧
    ((∀ idx pos col,
        (∃ p ∈ (⟨[], 0, none⟩ : State).selectedPoints, p.index = idx) →
        selectPoint ⟨[], 0, none⟩ idx pos col = (false, ⟨[], 0, none⟩)) ∧
      List.Pairwise
        (fun e1 e2 =>
          (∀ c cg, e1 = PMEvent.assigned c → e2 = PMEvent.assigned cg → c < cg) ∧
          (∀ c, e1 = PMEvent.freed c → e2 ≠ PMEvent.assigned c))
        (traceEvents ⟨[], 0, none⟩
          [.select 0 ⟨0, 0, 0⟩ ⟨0, 0, 0⟩, .select 1 ⟨1, 0, 0⟩ ⟨0, 0, 0⟩,
            .deleteAt 0, .select 2 ⟨0, 1, 0⟩ ⟨0, 0, 0⟩])) :=
  ⟨by intro p hp; simp at hp,
    selectPoint_colorId_spec ⟨[], 0, none⟩
      [.select 0 ⟨0, 0, 0⟩ ⟨0, 0, 0⟩, .select 1 ⟨1, 0, 0⟩ ⟨0, 0, 0⟩,
        .deleteAt 0, .select 2 ⟨0, 1, 0⟩ ⟨0, 0, 0⟩]
      (by intro p hp; simp at hp)⟩

end PointMarker

namespace PointMarker

/-- Generalized import run: when every point of `ps` resolves (via `cb`)
within tolerance to the matching entry of `R`, with point ids distinct and
disjoint from the accumulator state, the fold restores every entry in order. -/
theorem importRun_resolved (cb : ℚ → ℚ → ℚ → Option (ℕ × Vec3q × Colorq)) :
    ∀ (ps : List MarkedPoint) (R : List (ℕ × Vec3q × Colorq)),
      List.Forall₂
        (fun p r => cb p.position.x p.position.y p.position.z = some r ∧
          Vec3q.distSq r.2.1 p.position ≤ tolSq) ps R →
      ∀ (c : ℕ) (st0 : State),
        (∀ p ∈ st0.selectedPoints, p.index ∉ R.map (fun r => r.1)) →
        (R.map (fun r => r.1)).Nodup →
        ((ps.map (fun p => [p.position.x, p.position.y, p.position.z])).foldl
            (importStep cb) (c, st0)).1 = c + ps.length ∧
        ((ps.map (fun p => [p.position.x, p.position.y, p.position.z])).foldl
              (importStep cb) (c, st0)).2.selectedPoints.map
            (fun p => (p.index, p.position)) =
          st0.selectedPoints.map (fun p => (p.index, p.position)) ++
            R.map (fun r => (r.1, r.2.1)) := by
  intro ps R hf
  induction hf with
  | nil => intro c st0 _ _; simp
  | cons hpr htail ih =>
    rename_i p r ps R
    intro c st0 hdisj hnodup
    obtain ⟨hcb, htol⟩ := hpr
    obtain ⟨idx, pos, col⟩ := r
    have hstep : importStep cb (c, st0) [p.position.x, p.position.y, p.position.z] =
        (c + 1,
          { st0 with
            selectedPoints :=
              st0.selectedPoints ++ [⟨idx, pos, st0.nextColorId, col⟩],
            nextColorId := st0.nextColorId + 1 }) := by
      have hany : st0.selectedPoints.any (fun q => q.index == idx) = false := by
        rw [List.any_eq_false]
        intro q hq
        have := hdisj q hq
        simp only [List.map_cons, List.mem_cons] at this
        simp only [beq_iff_eq]
        intro he
        exact this (Or.inl he)
      simp [importStep, hcb, if_pos htol, selectPoint, hany]
    rw [List.map_cons, List.foldl_cons, hstep]
    have hdisj2 : ∀ q ∈ ({ st0 with
        selectedPoints :=
          st0.selectedPoints ++ [⟨idx, pos, st0.nextColorId, col⟩],
        nextColorId := st0.nextColorId + 1 } : State).selectedPoints,
        q.index ∉ R.map (fun r => r.1) := by
      intro q hq
      simp only [List.mem_append, List.mem_singleton] at hq
      rcases hq with hq | hq
      · intro hmem
        exact hdisj q hq (by simp [hmem])
      · subst hq
        simp only [List.map_cons, List.nodup_cons] at hnodup
        exact hnodup.1
    have hnodup2 : (R.map (fun r => r.1)).Nodup := by
      simp only [List.map_cons, List.nodup_cons] at hnodup
      exact hnodup.2
    obtain ⟨ih1, ih2⟩ := ih (c + 1) _ hdisj2 hnodup2
    refine ⟨by rw [ih1]; simp; omega, ?_⟩
    rw [ih2]
    simp

/-- C3 (amended): export followed by import against a resolver that answers,
for each exported triple, a point within tolerance of that triple and with
pairwise-distinct point ids, reconstructs an equal-length list in the same
order, the returned count equals that length; and any input triple whose
resolved point is farther than the tolerance, or that has fewer than 3
elements, is silently skipped without aborting the import. -/
theorem exportImport_roundTrip_amended (s st : State)
    (cb : ℚ → ℚ → ℚ → Option (ℕ × Vec3q × Colorq))
    (R : List (ℕ × Vec3q × Colorq))
    (hres : List.Forall₂
      (fun p r => cb p.position.x p.position.y p.position.z = some r ∧
        Vec3q.distSq r.2.1 p.position ≤ tolSq) st.selectedPoints R)
    (hnodup : (R.map (fun r => r.1)).Nodup) :
    (importFromJSON s (exportToJSON st) cb).1 = st.selectedPoints.length ∧
    (importFromJSON s (exportToJSON st) cb).2.selectedPoints.length =
      st.selectedPoints.length ∧
    (importFromJSON s (exportToJSON st) cb).2.selectedPoints.map
        (fun p => (p.index, p.position)) = R.map (fun r => (r.1, r.2.1)) ∧
    (∀ (t : List ℚ) (rest : List (List ℚ)),
      (t.length < 3 ∨
        ∃ x y z tl idx pos col, t = x :: y :: z :: tl ∧
          cb x y z = some (idx, pos, col) ∧
          tolSq < Vec3q.distSq pos ⟨x, y, z⟩) →
      importFromJSON s (t :: rest) cb = importFromJSON s rest cb) := by
  have hrun := importRun_resolved cb st.selectedPoints R hres 0 ⟨[], 0, none⟩
    (by intro p hp; simp at hp) hnodup
  have hexp : exportToJSON st =
      st.selectedPoints.map (fun p => [p.position.x, p.position.y, p.position.z]) := rfl
  have him : importFromJSON s (exportToJSON st) cb =
      (st.selectedPoints.map
        (fun p => [p.position.x, p.position.y, p.position.z])).foldl
        (importStep cb) (0, (⟨[], 0, none⟩ : State)) := by
    rw [importFromJSON, hexp]
    rfl
  obtain ⟨h1, h2⟩ := hrun
  refine ⟨by rw [him, h1]; omega, ?_, by rw [him, h2]; simp, ?_⟩
  · have hlen : ((importFromJSON s (exportToJSON st) cb).2.selectedPoints.map
        (fun p => (p.index, p.position))).length = (R.map (fun r => (r.1, r.2.1))).length := by
      rw [him, h2]
      simp
    have hRlen : R.length = st.selectedPoints.length :=
      (List.Forall₂.length_eq hres).symm
    simpa [hRlen] using hlen
  · intro t rest hskip
    have hstep : importStep cb (0, clearAll s) t = (0, clearAll s) := by
      rcases hskip with hlt | ⟨x, y, z, tl, idx, pos, col, ht, hcb, hfar⟩
      · rcases t with _ | ⟨x, t⟩
        · rfl
        rcases t with _ | ⟨y, t⟩
        · rfl
        rcases t with _ | ⟨z, t⟩
        · rfl
        simp only [List.length_cons] at hlt
        omega
      · subst ht
        simp [importStep, hcb, if_neg (not_le.mpr hfar)]
    simp only [importFromJSON, List.foldl_cons, hstep]

/-- Concrete store holding two marked points closer together than twice
the tolerance used by the JSON import. -/
def cexStore : State :=
  ⟨[⟨0, ⟨0, 0, 0⟩, 0, ⟨0, 0, 0⟩⟩, ⟨1, ⟨0, 0, 1/2000⟩, 1, ⟨0, 0, 0⟩⟩], 2, none⟩

/-- Counterexample to C3 as stated: the constant resolver returns, for each
exported triple of `cexStore`, a point within distance 0.001 of that triple,
yet the reconstructed list has length 1 while 2 triples were exported (both
resolve to point id 0, and the second selection is rejected). -/
theorem exportImport_roundTrip_counterexample :
    (∀ t ∈ exportToJSON cexStore,
      ∃ x y z idx pos col, t = [x, y, z] ∧ cbDup x y z = some (idx, pos, col) ∧
        Vec3q.distSq pos ⟨x, y, z⟩ ≤ tolSq) ∧
    (exportToJSON cexStore).length = 2 ∧
    (importFromJSON cexStore (exportToJSON cexStore) cbDup).1 = 1 ∧
    (importFromJSON cexStore (exportToJSON cexStore) cbDup).2.selectedPoints.length = 1 := by
  have hexp : exportToJSON cexStore = [[0, 0, 0], [0, 0, 1/2000]] := rfl
  have htol0 : Vec3q.distSq ⟨0, 0, 0⟩ ⟨0, 0, 0⟩ ≤ tolSq := by
    norm_num [Vec3q.distSq, tolSq]
  have htol1 : Vec3q.distSq ⟨0, 0, 0⟩ ⟨0, 0, (1 : ℚ)/2000⟩ ≤ tolSq := by
    norm_num [Vec3q.distSq, tolSq]
  refine ⟨?_, by rw [hexp]; rfl, ?_⟩
  · intro t ht
    rw [hexp] at ht
    simp only [List.mem_cons, List.not_mem_nil, or_false] at ht
    rcases ht with ht | ht
    · exact ⟨0, 0, 0, 0, ⟨0, 0, 0⟩, ⟨0, 0, 0⟩, by rw [ht], rfl, htol0⟩
    · exact ⟨0, 0, 1/2000, 0, ⟨0, 0, 0⟩, ⟨0, 0, 0⟩, by rw [ht], rfl, htol1⟩
  · have e1 : importStep cbDup (0, clearAll cexStore) [0, 0, 0] =
        (1, ⟨[⟨0, ⟨0, 0, 0⟩, 0, ⟨0, 0, 0⟩⟩], 1, none⟩) := by
      simp [importStep, cbDup, clearAll, if_pos htol0, selectPoint]
    have e2 : importStep cbDup
        (1, (⟨[⟨0, ⟨0, 0, 0⟩, 0, ⟨0, 0, 0⟩⟩], 1, none⟩ : State)) [0, 0, 1/2000] =
        (1, ⟨[⟨0, ⟨0, 0, 0⟩, 0, ⟨0, 0, 0⟩⟩], 1, none⟩) := by
      simp [importStep, cbDup, if_pos htol1, selectPoint]
    have him : importFromJSON cexStore (exportToJSON cexStore) cbDup =
        (1, ⟨[⟨0, ⟨0, 0, 0⟩, 0, ⟨0, 0, 0⟩⟩], 1, none⟩) := by
      rw [hexp]
      simp only [importFromJSON, List.foldl_cons, List.foldl_nil, e1, e2]
    rw [him]
    exact ⟨rfl, rfl⟩

/-- Resolver used for the amended round-trip witness: answers every query
with point id 5 at the queried position. -/
def cbEcho : ℚ → ℚ → ℚ → Option (ℕ × Vec3q × Colorq) :=
  fun x y z => some (5, ⟨x, y, z⟩, ⟨0, 0, 0⟩)

/-- Witness for the amended C3 theorem at a concrete one-point store. -/
theorem exportImport_roundTrip_amended_witness :
    List.Forall₂
      (fun p (r : ℕ × Vec3q × Colorq) =>
        cbEcho p.position.x p.position.y p.position.z = some r ∧
        Vec3q.distSq r.2.1 p.position ≤ tolSq)
      (⟨[⟨5, ⟨1, 2, 3⟩, 0, ⟨0, 0, 0⟩⟩], 1, none⟩ : State).selectedPoints
      [(5, ⟨1, 2, 3⟩, ⟨0, 0, 0⟩)] ∧
    (importFromJSON ⟨[], 0, none⟩
        (exportToJSON ⟨[⟨5, ⟨1, 2, 3⟩, 0, ⟨0, 0, 0⟩⟩], 1, none⟩) cbEcho).1 = 1 :=
  have hf : List.Forall₂
      (fun p (r : ℕ × Vec3q × Colorq) =>
        cbEcho p.position.x p.position.y p.position.z = some r ∧
        Vec3q.distSq r.2.1 p.position ≤ tolSq)
      (⟨[⟨5, ⟨1, 2, 3⟩, 0, ⟨0, 0, 0⟩⟩], 1, none⟩ : State).selectedPoints
      [(5, ⟨1, 2, 3⟩, ⟨0, 0, 0⟩)] :=
    List.Forall₂.cons ⟨rfl, by norm_num [Vec3q.distSq, tolSq]⟩ List.Forall₂.nil
  ⟨hf,
    (exportImport_roundTrip_amended ⟨[], 0, none⟩
      ⟨[⟨5, ⟨1, 2, 3⟩, 0, ⟨0, 0, 0⟩⟩], 1, none⟩ cbEcho
      [(5, ⟨1, 2, 3⟩, ⟨0, 0, 0⟩)] hf (by simp)).1⟩

end PointMarker

namespace PointMarker

/-- Concrete two-point store for witnessing the reorder specification. -/
def pmW : State :=
  ⟨[⟨0, ⟨0, 0, 0⟩, 0, ⟨0, 0, 0⟩⟩, ⟨1, ⟨1, 0, 0⟩, 1, ⟨0, 0, 0⟩⟩], 2, none⟩

/-- Witness for C5 at a concrete store, moving element 0 to insertion point 2. -/
theorem reorderPoints_insertion_point_spec_witness :
    0 < pmW.selectedPoints.length ∧ 2 ≤ pmW.selectedPoints.length ∧
    (reorderPoints pmW 0 2).selectedPoints[
        if (0 : ℕ) < 2 then 2 - 1 else 2]? = pmW.selectedPoints[0]? :=
  ⟨by decide, by decide,
    (reorderPoints_insertion_point_spec pmW 0 2 (by decide) (by decide)).1.2.1⟩

end PointMarker

namespace Picker

/-- Performance cap of the ray-based scans (`maxPointsToCheck` in the source). -/
def maxPointsToCheck : ℕ := 100000

/-- The loop stride: `ceil(N / maxPointsToCheck)` when the cache is larger
than the cap, 1 otherwise (`Math.ceil` of the exact division, computed here
as ceiling division on naturals). -/
def rayStep (n : ℕ) : ℕ :=
  if maxPointsToCheck < n then
    (n + (maxPointsToCheck - 1)) / maxPointsToCheck
  else 1

/-- Index sequence of `for (let i = 0; i < n; i += s)`, with fuel bounding the
iteration count (`fuel = n` suffices whenever `0 < s`). -/
def forLoopIdx (s : ℕ) : ℕ → ℕ → ℕ → List ℕ
  | 0, _, _ => []
  | fuel + 1, n, i => if i < n then i :: forLoopIdx s fuel n (i + s) else []

/-- The indices examined by the ray-based scans over a cache of `n` points. -/
def rayScanIndices (n : ℕ) : List ℕ :=
  forLoopIdx (rayStep n) n n 0

/-- Result record of `findClosestPointOnRay` (`{distance, t, point}` in the
source; `distSq` carries the squared distance, see the header). -/
structure RayHit where
  distSq : ℚ
  t : ℚ
  point : Vec3q
deriving DecidableEq

/-- findClosestPointOnRay: projection of the point on the ray, skipping
points behind the origin, and accepting only hits within `pointRadius`. -/
def findClosestPointOnRay (rayOrigin rayDirection pointPosition : Vec3q)
    (pointRadius : ℚ) : Option RayHit :=
  let projectionLength := (pointPosition.sub rayOrigin).dot rayDirection
  if projectionLength < 0 then none
  else
    let closest := rayOrigin.addScaled rayDirection projectionLength
    let dSq := closest.distSq pointPosition
    if 0 ≤ pointRadius ∧ dSq ≤ pointRadius ^ 2 then
      some ⟨dSq, projectionLength, pointPosition⟩
    else none

/-- The dynamically scaled pick radius `max(0.005, 0.01 * (distance / 10))`. -/
def pointRadiusOf (cameraDistance : ℚ) : ℚ :=
  max (5 / 1000) ((1 / 100) * (cameraDistance / 10))

/-- One iteration of the closest-point loop shared by `pick` and
`getClosestPointIndex`: keep the strictly closer accepted hit. The `none`
state models `minDistance = Infinity`. -/
def closestStep (positions : List Vec3q) (m : Mat4q)
    (rayOrigin rayDirection : Vec3q) (pointRadius : ℚ)
    (best : Option (ℕ × Vec3q × ℚ)) (i : ℕ) : Option (ℕ × Vec3q × ℚ) :=
  match positions[i]? with
  | none => best
  | some localPos =>
    let worldPos := m.transformPoint localPos
    match findClosestPointOnRay rayOrigin rayDirection worldPos pointRadius with
    | none => best
    | some hit =>
      match best with
      | none => some (i, worldPos, hit.distSq)
      | some b => if hit.distSq < b.2.2 then some (i, worldPos, hit.distSq) else best

/-- getClosestPointIndex: the strided closest-point scan returning the index
and world position of the winner. The camera ray and the camera-to-cloud
distance are computed by the external camera collaborator and passed in. -/
def getClosestPointIndex (positions : List Vec3q) (m : Mat4q)
    (rayOrigin rayDirection : Vec3q) (cameraDistance : ℚ) :
    Option (ℕ × Vec3q) :=
  let pointRadius := pointRadiusOf cameraDistance
  ((rayScanIndices positions.length).foldl
      (closestStep positions m rayOrigin rayDirection pointRadius) none).map
    (fun b => (b.1, b.2.1))

/-- pick: the identical loop of the source's `pick`, which returns only the
winning world position. -/
def pick (positions : List Vec3q) (m : Mat4q)
    (rayOrigin rayDirection : Vec3q) (cameraDistance : ℚ) : Option Vec3q :=
  (getClosestPointIndex positions m rayOrigin rayDirection cameraDistance).map
    (fun b => b.2)

/-- World position of cache entry `i` (total, with a zero default that is
never reached on in-range indices). -/
def worldPosAt (positions : List Vec3q) (m : Mat4q) (i : ℕ) : Vec3q :=
  m.transformPoint (positions.getD i ⟨0, 0, 0⟩)

/-- Signed projection `t` of cache entry `i` onto the ray. -/
def projAt (positions : List Vec3q) (m : Mat4q)
    (rayOrigin rayDirection : Vec3q) (i : ℕ) : ℚ :=
  ((worldPosAt positions m i).sub rayOrigin).dot rayDirection

/-- Squared perpendicular distance of cache entry `i` to the ray. -/
def perpDistSqAt (positions : List Vec3q) (m : Mat4q)
    (rayOrigin rayDirection : Vec3q) (i : ℕ) : ℚ :=
  (rayOrigin.addScaled rayDirection
      (projAt positions m rayOrigin rayDirection i)).distSq
    (worldPosAt positions m i)

end Picker

namespace Picker

/-- Buffer entry of the `pickNearest` top-k scan (`{index, px, py, pz, dist}`
in the source; `distSq` carries the squared perpendicular distance). -/
structure NearEntry where
  index : ℕ
  px : ℚ
  py : ℚ
  pz : ℚ
  distSq : ℚ
deriving DecidableEq

/-- Comparison used by the source's `sort((a, b) => a.dist - b.dist)`. -/
def nearLe (a b : NearEntry) : Prop := a.distSq ≤ b.distSq

instance : DecidableRel nearLe :=
  fun a b => inferInstanceAs (Decidable (a.distSq ≤ b.distSq))

instance : IsTotal NearEntry nearLe :=
  ⟨fun a b => le_total a.distSq b.distSq⟩

instance : IsTrans NearEntry nearLe :=
  ⟨fun _ _ _ h1 h2 => le_trans h1 h2⟩

/-- Ascending-distance sort of the top-k buffer (a stable comparison sort,
as JavaScript's `Array.prototype.sort`). -/
def sortNear (l : List NearEntry) : List NearEntry :=
  l.insertionSort nearLe

/-- One iteration of the `pickNearest` loop: skip points behind the origin,
push while the buffer holds fewer than `count` entries (sorting when it fills),
afterwards replace the worst entry when strictly closer and re-sort. -/
def pickNearestStep (positions : List Vec3q) (m : Mat4q)
    (rayOrigin rayDirection : Vec3q) (count : ℕ)
    (buf : List NearEntry) (i : ℕ) : List NearEntry :=
  match positions[i]? with
  | none => buf
  | some localPos =>
    let wp := m.transformPoint localPos
    let proj := (wp.sub rayOrigin).dot rayDirection
    if proj < 0 then buf
    else
      let cp := rayOrigin.addScaled rayDirection proj
      let dSq := cp.distSq wp
      if buf.length < count then
        let buf2 := buf ++ [⟨i, wp.x, wp.y, wp.z, dSq⟩]
        if buf2.length = count then sortNear buf2 else buf2
      else
        match buf.getLast? with
        | some worst =>
          if dSq < worst.distSq then
            sortNear (buf.dropLast ++ [⟨i, wp.x, wp.y, wp.z, dSq⟩])
          else buf
        | none => buf

/-- The top-k buffer produced by `pickNearest` before projection to
index/position pairs (including the final sort of a non-full buffer). -/
def pickNearestEntries (positions : List Vec3q) (m : Mat4q)
    (rayOrigin rayDirection : Vec3q) (count : ℕ) : List NearEntry :=
  let final := (rayScanIndices positions.length).foldl
    (pickNearestStep positions m rayOrigin rayDirection count) []
  if final.length < count then sortNear final else final

/-- pickNearest: the `count` cached points nearest to the ray, in ascending
perpendicular-distance order. -/
def pickNearest (positions : List Vec3q) (m : Mat4q)
    (rayOrigin rayDirection : Vec3q) (count : ℕ) : List (ℕ × Vec3q) :=
  (pickNearestEntries positions m rayOrigin rayDirection count).map
    (fun e => (e.index, ⟨e.px, e.py, e.pz⟩))

/-- The in-front candidates (projection `t ≥ 0`) contributed by an index
list, with their buffer entries, in scan order. -/
def nearCandidates (positions : List Vec3q) (m : Mat4q)
    (rayOrigin rayDirection : Vec3q) (idxs : List ℕ) : List NearEntry :=
  idxs.filterMap (fun i =>
    match positions[i]? with
    | none => none
    | some localPos =>
      let wp := m.transformPoint localPos
      let proj := (wp.sub rayOrigin).dot rayDirection
      if proj < 0 then none
      else
        some ⟨i, wp.x, wp.y, wp.z,
          (rayOrigin.addScaled rayDirection proj).distSq wp⟩)

/-- One iteration of the `getSplatsNearRay` loop: collect every in-front
point whose perpendicular distance is within `worldRadius`. -/
def splatsNearStep (positions : List Vec3q) (m : Mat4q)
    (rayOrigin rayDir : Vec3q) (worldRadius : ℚ)
    (result : List ℕ) (i : ℕ) : List ℕ :=
  match positions[i]? with
  | none => result
  | some localPos =>
    let wp := m.transformPoint localPos
    let proj := (wp.sub rayOrigin).dot rayDir
    if proj < 0 then result
    else
      let dSq := (rayOrigin.addScaled rayDir proj).distSq wp
      if 0 ≤ worldRadius ∧ dSq ≤ worldRadius ^ 2 then result ++ [i]
      else result

/-- getSplatsNearRay: unstrided radius query over every cached point. -/
def getSplatsNearRay (positions : List Vec3q) (m : Mat4q)
    (rayOrigin rayDir : Vec3q) (worldRadius : ℚ) : List ℕ :=
  (List.range positions.length).foldl
    (splatsNearStep positions m rayOrigin rayDir worldRadius) []

/-- The combined model-view-projection matrix built by
`getPointsInScreenRect` (`viewMatrix` is the inverted camera world transform,
inverted by the external camera collaborator). -/
def rectMvp (viewMatrix projMatrix worldMatrix : Mat4q) : Mat4q :=
  Mat4q.mul2 projMatrix (Mat4q.mul2 viewMatrix worldMatrix)

/-- Clip-space w of a cached point under the combined transform. -/
def rectClipW (mvp : Mat4q) (p : Vec3q) : ℚ :=
  mvp 3 * p.x + mvp 7 * p.y + mvp 11 * p.z + mvp 15

/-- Normalized screen x of a cached point under the combined transform. -/
def rectScreenX (mvp : Mat4q) (p : Vec3q) : ℚ :=
  ((mvp 0 * p.x + mvp 4 * p.y + mvp 8 * p.z + mvp 12) / rectClipW mvp p + 1)
    * (1 / 2)

/-- Normalized screen y of a cached point under the combined transform. -/
def rectScreenY (mvp : Mat4q) (p : Vec3q) : ℚ :=
  (1 - (mvp 1 * p.x + mvp 5 * p.y + mvp 9 * p.z + mvp 13) / rectClipW mvp p)
    * (1 / 2)

/-- One iteration of the `getPointsInScreenRect` loop: discard points with
non-positive clip w, keep projections inside the normalized rectangle. -/
def rectStep (positions : List Vec3q) (mvp : Mat4q)
    (minX maxX minY maxY : ℚ) (result : List ℕ) (i : ℕ) : List ℕ :=
  match positions[i]? with
  | none => result
  | some p =>
    if rectClipW mvp p ≤ 0 then result
    else if minX ≤ rectScreenX mvp p ∧ rectScreenX mvp p ≤ maxX ∧
        minY ≤ rectScreenY mvp p ∧ rectScreenY mvp p ≤ maxY then
      result ++ [i]
    else result

/-- getPointsInScreenRect: unstrided rectangle query over every cached point,
with order-independent corners. -/
def getPointsInScreenRect (positions : List Vec3q)
    (viewMatrix projMatrix worldMatrix : Mat4q) (x1 y1 x2 y2 : ℚ) : List ℕ :=
  let mvp := rectMvp viewMatrix projMatrix worldMatrix
  (List.range positions.length).foldl
    (rectStep positions mvp (min x1 x2) (max x1 x2) (min y1 y2) (max y1 y2)) []

end Picker

namespace Picker

/-- Closed form of the strided for-loop indices: with positive stride `s` and
enough fuel, the loop visits `i, i+s, i+2s, ...` below `n`. -/
theorem forLoopIdx_closed :
    ∀ (fuel s n i : ℕ), 0 < s → n ≤ i + fuel →
      forLoopIdx s fuel n i =
        (List.range ((n - i + s - 1) / s)).map (fun j => i + j * s) := by
  intro fuel
  induction fuel with
  | zero =>
    intro s n i hs hle
    have h0 : n - i = 0 := by omega
    have h1 : (n - i + s - 1) / s = 0 := by
      rw [h0]
      exact Nat.div_eq_of_lt (by omega)
    simp [forLoopIdx, h1]
  | succ fuel ih =>
    intro s n i hs hle
    by_cases hin : i < n
    · rw [forLoopIdx, if_pos hin, ih s n (i + s) hs (by omega)]
      have hsplit : n - i + s - 1 = (n - i - 1) + s := by omega
      have hcount : (n - i + s - 1) / s = (n - i - 1) / s + 1 := by
        rw [hsplit, Nat.add_div_right _ hs]
      have hcount2 : (n - (i + s) + s - 1) / s = (n - i - 1) / s := by
        rcases le_or_lt s (n - i) with hc | hc
        · congr 1
          omega
        · have hz : n - (i + s) = 0 := by omega
          rw [hz]
          rw [Nat.div_eq_of_lt (by omega), Nat.div_eq_of_lt (by omega)]
      rw [hcount2, hcount, List.range_succ_eq_map]
      simp only [List.map_cons, List.map_map, Nat.zero_mul, Nat.add_zero]
      refine congrArg (List.cons i) ?_
      refine List.map_congr_left ?_
      intro j _
      simp only [Function.comp]
      rw [Nat.succ_mul]
      omega
    · rw [forLoopIdx, if_neg hin]
      have h0 : n - i = 0 := by omega
      have h1 : (n - i + s - 1) / s = 0 := by
        rw [h0]
        exact Nat.div_eq_of_lt (by omega)
      simp [h1]

/-- The stride is always positive. -/
theorem rayStep_pos (n : ℕ) : 0 < rayStep n := by
  rw [rayStep]
  split
  · rename_i h
    rw [maxPointsToCheck] at h ⊢
    omega
  · exact Nat.one_pos

/-- C9: the ray-based queries (`pick` via `getClosestPointIndex`,
`pickNearest`, `getClosestPointIndex`) examine exactly the indices
`0, s, 2s, ...` below `N`, where `s` is the least stride with
`s * 100000 ≥ N` (the ceiling of `N / 100000`) when `N > 100000` and `1`
otherwise, while `getSplatsNearRay` and `getPointsInScreenRect` fold over
every index `0 .. N-1` with no stride. -/
theorem scanCoverage_spec (n : ℕ) :
    rayScanIndices n =
      (List.range ((n + rayStep n - 1) / rayStep n)).map
        (fun j => j * rayStep n) ∧
    (maxPointsToCheck < n →
      n ≤ rayStep n * maxPointsToCheck ∧
      maxPointsToCheck * (rayStep n - 1) < n) ∧
    (n ≤ maxPointsToCheck → rayStep n = 1) ∧
    (∀ (positions : List Vec3q) (m : Mat4q) (o d : Vec3q) (cd : ℚ),
      positions.length = n →
      getClosestPointIndex positions m o d cd =
        ((rayScanIndices n).foldl
            (closestStep positions m o d (pointRadiusOf cd)) none).map
          (fun b => (b.1, b.2.1)) ∧
      pick positions m o d cd =
        (getClosestPointIndex positions m o d cd).map (fun b => b.2)) ∧
    (∀ (positions : List Vec3q) (m : Mat4q) (o d : Vec3q) (count : ℕ),
      positions.length = n →
      pickNearestEntries positions m o d count =
        (if ((rayScanIndices n).foldl
              (pickNearestStep positions m o d count) []).length < count then
          sortNear ((rayScanIndices n).foldl
            (pickNearestStep positions m o d count) [])
        else
          (rayScanIndices n).foldl (pickNearestStep positions m o d count) [])) ∧
    (∀ (positions : List Vec3q) (m : Mat4q) (o d : Vec3q) (wr : ℚ),
      positions.length = n →
      getSplatsNearRay positions m o d wr =
        (List.range n).foldl (splatsNearStep positions m o d wr) []) ∧
    (∀ (positions : List Vec3q) (vm pm wm : Mat4q) (x1 y1 x2 y2 : ℚ),
      positions.length = n →
      getPointsInScreenRect positions vm pm wm x1 y1 x2 y2 =
        (List.range n).foldl
          (rectStep positions (rectMvp vm pm wm)
            (min x1 x2) (max x1 x2) (min y1 y2) (max y1 y2)) []) := by
  refine ⟨?_, ?_, ?_, ?_, ?_, ?_, ?_⟩
  · have h := forLoopIdx_closed n (rayStep n) n 0 (rayStep_pos n) (by omega)
    rw [rayScanIndices, h]
    simp
  · intro hgt
    rw [rayStep, if_pos hgt]
    rw [maxPointsToCheck] at hgt ⊢
    constructor
    · omega
    · omega
  · intro hle
    rw [rayStep, if_neg (by omega)]
  · intro positions m o d cd hn
    subst hn
    exact ⟨rfl, rfl⟩
  · intro positions m o d count hn
    subst hn
    rfl
  · intro positions m o d wr hn
    subst hn
    rfl
  · intro positions vm pm wm x1 y1 x2 y2 hn
    subst hn
    rfl

/-- Witness for C9 at a concrete cache size above the cap. -/
theorem scanCoverage_spec_witness :
    maxPointsToCheck < 250000 ∧ rayStep 250000 = 3 ∧
    (250000 ≤ rayStep 250000 * maxPointsToCheck ∧
      maxPointsToCheck * (rayStep 250000 - 1) < 250000) :=
  ⟨by decide, by decide, (scanCoverage_spec 250000).2.1 (by decide)⟩

end Picker

namespace Picker

/-- Every index visited by the strided loop is below the bound. -/
theorem forLoopIdx_lt :
    ∀ (fuel s n i : ℕ), ∀ x ∈ forLoopIdx s fuel n i, x < n := by
  intro fuel
  induction fuel with
  | zero => intro s n i x hx; simp [forLoopIdx] at hx
  | succ fuel ih =>
    intro s n i x hx
    rw [forLoopIdx] at hx
    split at hx
    · rcases List.mem_cons.mp hx with hx | hx
      · subst hx; assumption
      · exact ih s n (i + s) x hx
    · simp at hx

/-- Every scanned index is a valid cache index. -/
theorem rayScanIndices_lt (n : ℕ) : ∀ x ∈ rayScanIndices n, x < n :=
  forLoopIdx_lt n (rayStep n) n 0

/-- Specification of `findClosestPointOnRay`: it fails exactly on points
behind the origin or outside the radius, and any hit records the projection,
the squared perpendicular distance and the point, within the radius. -/
theorem findClosestPointOnRay_spec (o d w : Vec3q) (r : ℚ) :
    (findClosestPointOnRay o d w r = none ↔
      ((w.sub o).dot d < 0 ∨
        ¬(0 ≤ r ∧ (o.addScaled d ((w.sub o).dot d)).distSq w ≤ r ^ 2))) ∧
    (∀ hit, findClosestPointOnRay o d w r = some hit →
      hit.distSq = (o.addScaled d ((w.sub o).dot d)).distSq w ∧
      hit.t = (w.sub o).dot d ∧ hit.point = w ∧
      0 ≤ hit.t ∧ 0 ≤ r ∧ hit.distSq ≤ r ^ 2) := by
  rw [findClosestPointOnRay]
  by_cases hproj : (w.sub o).dot d < 0
  · rw [if_pos hproj]
    refine ⟨by simp [hproj], ?_⟩
    intro hit h
    cases h
  · rw [if_neg hproj]
    by_cases hrad : 0 ≤ r ∧ (o.addScaled d ((w.sub o).dot d)).distSq w ≤ r ^ 2
    · simp only [if_pos hrad]
      refine ⟨by simp [hproj, hrad], ?_⟩
      intro hit h
      cases h
      exact ⟨rfl, rfl, rfl, le_of_not_lt hproj, hrad.1, hrad.2⟩
    · simp only [if_neg hrad]
      refine ⟨by simp [hproj, hrad], ?_⟩
      intro hit h
      cases h

/-- Loop invariant of the closest-point scan over the processed indices:
either no processed point produced a hit, or the state holds a hit of
minimal squared perpendicular distance among the processed indices. -/
def IsBestOf (positions : List Vec3q) (m : Mat4q) (o d : Vec3q) (r : ℚ)
    (seen : List ℕ) (best : Option (ℕ × Vec3q × ℚ)) : Prop :=
  match best with
  | none =>
    ∀ j ∈ seen, findClosestPointOnRay o d (worldPosAt positions m j) r = none
  | some b =>
    b.1 ∈ seen ∧ b.2.1 = worldPosAt positions m b.1 ∧
    (∃ hit, findClosestPointOnRay o d (worldPosAt positions m b.1) r =
      some hit ∧ b.2.2 = hit.distSq) ∧
    ∀ j ∈ seen, ∀ hj,
      findClosestPointOnRay o d (worldPosAt positions m j) r = some hj →
      b.2.2 ≤ hj.distSq

/-- One step of the closest-point loop preserves the invariant. -/
theorem closestStep_preserves (positions : List Vec3q) (m : Mat4q)
    (o d : Vec3q) (r : ℚ) (seen : List ℕ)
    (best : Option (ℕ × Vec3q × ℚ)) (i : ℕ) (hi : i < positions.length)
    (h : IsBestOf positions m o d r seen best) :
    IsBestOf positions m o d r (seen ++ [i])
      (closestStep positions m o d r best i) := by
  have hw : m.transformPoint positions[i] = worldPosAt positions m i := by
    rw [worldPosAt, List.getD_eq_getElem positions _ hi]
  rw [closestStep, List.getElem?_eq_getElem hi]
  simp only [hw]
  rcases hfc : findClosestPointOnRay o d (worldPosAt positions m i) r
    with _ | hit
  all_goals dsimp only
  · cases best with
    | none =>
      intro j hj
      rcases List.mem_append.mp hj with hj | hj
      · exact h j hj
      · rw [List.mem_singleton.mp hj]
        exact hfc
    | some b =>
      obtain ⟨hmem, hpos, hhit, hmin⟩ := h
      refine ⟨List.mem_append_left _ hmem, hpos, hhit, ?_⟩
      intro j hj hjh hjeq
      rcases List.mem_append.mp hj with hj | hj
      · exact hmin j hj hjh hjeq
      · rw [List.mem_singleton.mp hj] at hjeq
        rw [hfc] at hjeq
        cases hjeq
  · cases best with
    | none =>
      refine ⟨List.mem_append_right _ (List.mem_singleton.mpr rfl), rfl,
        ⟨hit, hfc, rfl⟩, ?_⟩
      intro j hj hjh hjeq
      rcases List.mem_append.mp hj with hj | hj
      · rw [h j hj] at hjeq
        cases hjeq
      · rw [List.mem_singleton.mp hj] at hjeq
        rw [hfc] at hjeq
        cases hjeq
        exact le_refl _
    | some b =>
      obtain ⟨hmem, hpos, ⟨bh, hbh, hbd⟩, hmin⟩ := h
      dsimp only
      by_cases hlt : hit.distSq < b.2.2
      · rw [if_pos hlt]
        refine ⟨List.mem_append_right _ (List.mem_singleton.mpr rfl), rfl,
          ⟨hit, hfc, rfl⟩, ?_⟩
        intro j hj hjh hjeq
        rcases List.mem_append.mp hj with hj | hj
        · exact le_of_lt (lt_of_lt_of_le hlt (hmin j hj hjh hjeq))
        · rw [List.mem_singleton.mp hj] at hjeq
          rw [hfc] at hjeq
          cases hjeq
          exact le_refl _
      · rw [if_neg hlt]
        refine ⟨List.mem_append_left _ hmem, hpos, ⟨bh, hbh, hbd⟩, ?_⟩
        intro j hj hjh hjeq
        rcases List.mem_append.mp hj with hj | hj
        · exact hmin j hj hjh hjeq
        · rw [List.mem_singleton.mp hj] at hjeq
          rw [hfc] at hjeq
          cases hjeq
          exact le_of_not_lt hlt

/-- The fold of closest-point steps preserves the invariant. -/
theorem closestFold_spec (positions : List Vec3q) (m : Mat4q)
    (o d : Vec3q) (r : ℚ) :
    ∀ (idxs : List ℕ) (seen : List ℕ) (best : Option (ℕ × Vec3q × ℚ)),
      (∀ j ∈ idxs, j < positions.length) →
      IsBestOf positions m o d r seen best →
      IsBestOf positions m o d r (seen ++ idxs)
        (idxs.foldl (closestStep positions m o d r) best) := by
  intro idxs
  induction idxs with
  | nil => intro seen best _ h; simpa using h
  | cons i idxs ih =>
    intro seen best hbound h
    have hstep := closestStep_preserves positions m o d r seen best i
      (hbound i (List.mem_cons_self i idxs)) h
    have := ih (seen ++ [i]) (closestStep positions m o d r best i)
      (fun j hj => hbound j (List.mem_cons_of_mem i hj)) hstep
    simpa [List.append_assoc] using this

/-- C1: the closest-point queries (`getClosestPointIndex` and `pick`, which
share the loop) consider only scanned points with projection `t ≥ 0` onto
the pick ray, and return the considered point of minimal perpendicular
distance among those within the scaled radius
`max(0.005, 0.01 * (cameraDistance / 10))`; when no considered point is
within that radius they return `none`. Distances are compared squared. -/
theorem getClosestPointIndex_spec (positions : List Vec3q) (m : Mat4q)
    (o d : Vec3q) (cd : ℚ) :
    (∀ i p, getClosestPointIndex positions m o d cd = some (i, p) →
      i ∈ rayScanIndices positions.length ∧ p = worldPosAt positions m i ∧
      0 ≤ projAt positions m o d i ∧
      perpDistSqAt positions m o d i ≤ pointRadiusOf cd ^ 2 ∧
      ∀ j ∈ rayScanIndices positions.length,
        0 ≤ projAt positions m o d j →
        perpDistSqAt positions m o d j ≤ pointRadiusOf cd ^ 2 →
        perpDistSqAt positions m o d i ≤ perpDistSqAt positions m o d j) ∧
    (getClosestPointIndex positions m o d cd = none ↔
      ∀ j ∈ rayScanIndices positions.length,
        projAt positions m o d j < 0 ∨
        pointRadiusOf cd ^ 2 < perpDistSqAt positions m o d j) ∧
    pick positions m o d cd =
      (getClosestPointIndex positions m o d cd).map (fun b => b.2) := by
  have hr : 0 ≤ pointRadiusOf cd :=
    le_trans (by norm_num) (le_max_left (5 / 1000) ((1 / 100) * (cd / 10)))
  have hinv := closestFold_spec positions m o d (pointRadiusOf cd)
    (rayScanIndices positions.length) [] none
    (rayScanIndices_lt positions.length) (by intro j hj; simp at hj)
  rw [List.nil_append] at hinv
  have hcand : ∀ j, 0 ≤ projAt positions m o d j →
      perpDistSqAt positions m o d j ≤ pointRadiusOf cd ^ 2 →
      ∃ hj, findClosestPointOnRay o d (worldPosAt positions m j)
        (pointRadiusOf cd) = some hj ∧ hj.distSq = perpDistSqAt positions m o d j := by
    intro j hpj hdj
    rcases hf : findClosestPointOnRay o d (worldPosAt positions m j)
      (pointRadiusOf cd) with _ | hj
    · have := ((findClosestPointOnRay_spec o d (worldPosAt positions m j)
        (pointRadiusOf cd)).1).mp hf
      rcases this with hlt | hnot
      · exact absurd hlt (not_lt.mpr hpj)
      · exact absurd ⟨hr, hdj⟩ hnot
    · have hsp := (findClosestPointOnRay_spec o d (worldPosAt positions m j)
        (pointRadiusOf cd)).2 hj hf
      exact ⟨hj, rfl, hsp.1⟩
  have hhit_perp : ∀ j hj,
      findClosestPointOnRay o d (worldPosAt positions m j)
        (pointRadiusOf cd) = some hj →
      hj.distSq = perpDistSqAt positions m o d j ∧
      0 ≤ projAt positions m o d j ∧
      perpDistSqAt positions m o d j ≤ pointRadiusOf cd ^ 2 := by
    intro j hj hf
    have hsp := (findClosestPointOnRay_spec o d (worldPosAt positions m j)
      (pointRadiusOf cd)).2 hj hf
    refine ⟨hsp.1, ?_, ?_⟩
    · rw [projAt, ← hsp.2.1]
      exact hsp.2.2.2.1
    · rw [perpDistSqAt, projAt, ← hsp.1]
      exact hsp.2.2.2.2.2
  refine ⟨?_, ?_, rfl⟩
  · intro i p hres
    simp only [getClosestPointIndex] at hres
    rcases hfold : (rayScanIndices positions.length).foldl
        (closestStep positions m o d (pointRadiusOf cd)) none with _ | b
    · rw [hfold] at hres
      cases hres
    · rw [hfold] at hres
      simp only [Option.map_some', Option.some.injEq, Prod.mk.injEq] at hres
      rw [hfold] at hinv
      obtain ⟨hmem, hpos, ⟨bh, hbh, hbd⟩, hmin⟩ := hinv
      obtain ⟨hb1, hb2⟩ := hres
      subst hb1
      obtain ⟨hperp, hpj, hdj⟩ := hhit_perp b.1 bh hbh
      refine ⟨hmem, by rw [← hb2, hpos], hpj, hdj, ?_⟩
      intro j hj hpj2 hdj2
      obtain ⟨hj2, hf2, hd2⟩ := hcand j hpj2 hdj2
      have := hmin j hj hj2 hf2
      rw [hbd, hperp] at this
      rw [← hd2]
      exact this
  · simp only [getClosestPointIndex]
    rcases hfold : (rayScanIndices positions.length).foldl
        (closestStep positions m o d (pointRadiusOf cd)) none with _ | b
    · rw [hfold] at hinv
      simp only [Option.map_none', true_iff]
      intro j hj
      have hn := hinv j hj
      have := ((findClosestPointOnRay_spec o d (worldPosAt positions m j)
        (pointRadiusOf cd)).1).mp hn
      rcases this with hlt | hnot
      · exact Or.inl hlt
      · right
        rcases not_and_or.mp hnot with hc | hc
        · exact absurd hr hc
        · exact lt_of_not_le hc
    · rw [hfold] at hinv
      obtain ⟨hmem, _, ⟨bh, hbh, _⟩, _⟩ := hinv
      simp only [Option.map_some']
      constructor
      · intro hcon
        cases hcon
      · intro hall
        obtain ⟨hperp, hpj, hdj⟩ := hhit_perp b.1 bh hbh
        rcases hall b.1 hmem with hlt | hlt
        · exact absurd hpj (not_le.mpr hlt)
        · exact absurd hdj (not_le.mpr hlt)

end Picker

namespace Picker

/-- Column-major identity matrix. -/
def idMat : Mat4q := fun i => if i = 0 ∨ i = 5 ∨ i = 10 ∨ i = 15 then 1 else 0

/-- Witness for C1: one cached point on the ray axis is picked. -/
theorem getClosestPointIndex_spec_witness :
    getClosestPointIndex [(⟨0, 0, 1⟩ : Vec3q)] idMat ⟨0, 0, 0⟩ ⟨0, 0, 1⟩ 0 =
      some (0, ⟨0, 0, 1⟩) ∧
    (0 ∈ rayScanIndices [(⟨0, 0, 1⟩ : Vec3q)].length ∧
      (⟨0, 0, 1⟩ : Vec3q) = worldPosAt [⟨0, 0, 1⟩] idMat 0 ∧
      0 ≤ projAt [⟨0, 0, 1⟩] idMat ⟨0, 0, 0⟩ ⟨0, 0, 1⟩ 0 ∧
      perpDistSqAt [⟨0, 0, 1⟩] idMat ⟨0, 0, 0⟩ ⟨0, 0, 1⟩ 0 ≤
        pointRadiusOf 0 ^ 2 ∧
      ∀ j ∈ rayScanIndices [(⟨0, 0, 1⟩ : Vec3q)].length,
        0 ≤ projAt [⟨0, 0, 1⟩] idMat ⟨0, 0, 0⟩ ⟨0, 0, 1⟩ j →
        perpDistSqAt [⟨0, 0, 1⟩] idMat ⟨0, 0, 0⟩ ⟨0, 0, 1⟩ j ≤
          pointRadiusOf 0 ^ 2 →
        perpDistSqAt [⟨0, 0, 1⟩] idMat ⟨0, 0, 0⟩ ⟨0, 0, 1⟩ 0 ≤
          perpDistSqAt [⟨0, 0, 1⟩] idMat ⟨0, 0, 0⟩ ⟨0, 0, 1⟩ j) := by
  have heval : getClosestPointIndex [(⟨0, 0, 1⟩ : Vec3q)] idMat
      ⟨0, 0, 0⟩ ⟨0, 0, 1⟩ 0 = some (0, ⟨0, 0, 1⟩) := by
    norm_num [getClosestPointIndex, rayScanIndices, rayStep, maxPointsToCheck,
      forLoopIdx, closestStep, findClosestPointOnRay, pointRadiusOf, idMat,
      Mat4q.transformPoint, Vec3q.sub, Vec3q.dot, Vec3q.addScaled,
      Vec3q.distSq]
  exact ⟨heval,
    (getClosestPointIndex_spec [⟨0, 0, 1⟩] idMat ⟨0, 0, 0⟩ ⟨0, 0, 1⟩ 0).1
      0 ⟨0, 0, 1⟩ heval⟩

end Picker

namespace Picker

/-- The acceptance predicate of the rectangle query for cache index `j`:
positive clip w and projected screen coordinates inside the rectangle. -/
def RectKeep (positions : List Vec3q) (mvp : Mat4q)
    (minX maxX minY maxY : ℚ) (j : ℕ) : Prop :=
  ¬(rectClipW mvp (positions.getD j ⟨0, 0, 0⟩) ≤ 0) ∧
  (minX ≤ rectScreenX mvp (positions.getD j ⟨0, 0, 0⟩) ∧
    rectScreenX mvp (positions.getD j ⟨0, 0, 0⟩) ≤ maxX ∧
    minY ≤ rectScreenY mvp (positions.getD j ⟨0, 0, 0⟩) ∧
    rectScreenY mvp (positions.getD j ⟨0, 0, 0⟩) ≤ maxY)

instance rectKeepDec (positions : List Vec3q) (mvp : Mat4q)
    (minX maxX minY maxY : ℚ) (j : ℕ) :
    Decidable (RectKeep positions mvp minX maxX minY maxY j) := by
  unfold RectKeep
  infer_instance

/-- Membership in the rectangle-query fold: an index is collected exactly
when it was already collected or it is scanned and accepted. -/
theorem rectFold_mem (positions : List Vec3q) (mvp : Mat4q)
    (minX maxX minY maxY : ℚ) :
    ∀ (l : List ℕ) (acc : List ℕ) (j : ℕ),
      (∀ i ∈ l, i < positions.length) →
      (j ∈ l.foldl (rectStep positions mvp minX maxX minY maxY) acc ↔
        j ∈ acc ∨ (j ∈ l ∧ RectKeep positions mvp minX maxX minY maxY j)) := by
  intro l
  induction l with
  | nil => intro acc j _; simp
  | cons i l ih =>
    intro acc j hbound
    have hi : i < positions.length := hbound i (List.mem_cons_self i l)
    have hbl : ∀ x ∈ l, x < positions.length :=
      fun x hx => hbound x (List.mem_cons_of_mem i hx)
    rw [List.foldl_cons]
    have hstep : rectStep positions mvp minX maxX minY maxY acc i =
        if RectKeep positions mvp minX maxX minY maxY i then acc ++ [i]
        else acc := by
      rw [rectStep, List.getElem?_eq_getElem hi,
        ← List.getD_eq_getElem positions ⟨0, 0, 0⟩ hi]
      dsimp only
      by_cases hc : rectClipW mvp (positions.getD i ⟨0, 0, 0⟩) ≤ 0
      · rw [if_pos hc, if_neg (fun hk => hk.1 hc)]
      · simp only [if_neg hc]
        by_cases hrect : minX ≤ rectScreenX mvp (positions.getD i ⟨0, 0, 0⟩) ∧
            rectScreenX mvp (positions.getD i ⟨0, 0, 0⟩) ≤ maxX ∧
            minY ≤ rectScreenY mvp (positions.getD i ⟨0, 0, 0⟩) ∧
            rectScreenY mvp (positions.getD i ⟨0, 0, 0⟩) ≤ maxY
        · rw [if_pos hrect, if_pos ⟨hc, hrect⟩]
        · rw [if_neg hrect, if_neg (fun hk => hrect hk.2)]
    rw [hstep]
    by_cases hk : RectKeep positions mvp minX maxX minY maxY i
    · rw [if_pos hk, ih (acc ++ [i]) j hbl]
      constructor
      · rintro (hj | hj)
        · rcases List.mem_append.mp hj with hj | hj
          · exact Or.inl hj
          · rw [List.mem_singleton.mp hj]
            exact Or.inr ⟨List.mem_cons_self i l, hk⟩
        · exact Or.inr ⟨List.mem_cons_of_mem i hj.1, hj.2⟩
      · rintro (hj | ⟨hjl, hjk⟩)
        · exact Or.inl (List.mem_append_left _ hj)
        · rcases List.mem_cons.mp hjl with hj | hj
          · subst hj
            exact Or.inl (List.mem_append_right _ (List.mem_singleton.mpr rfl))
          · exact Or.inr ⟨hj, hjk⟩
    · rw [if_neg hk, ih acc j hbl]
      constructor
      · rintro (hj | ⟨hjl, hjk⟩)
        · exact Or.inl hj
        · exact Or.inr ⟨List.mem_cons_of_mem i hjl, hjk⟩
      · rintro (hj | ⟨hjl, hjk⟩)
        · exact Or.inl hj
        · rcases List.mem_cons.mp hjl with hj | hj
          · subst hj
            exact absurd hjk hk
          · exact Or.inr ⟨hj, hjk⟩

/-- C7: the rectangle query is invariant under swapping the two corners, and
collects exactly the cached points with positive clip `w` whose normalized
screen projection lies in the rectangle spanned by the corners. -/
theorem getPointsInScreenRect_spec (positions : List Vec3q)
    (vm pm wm : Mat4q) (x1 y1 x2 y2 : ℚ) :
    getPointsInScreenRect positions vm pm wm x1 y1 x2 y2 =
      getPointsInScreenRect positions vm pm wm x2 y2 x1 y1 ∧
    (∀ j, j ∈ getPointsInScreenRect positions vm pm wm x1 y1 x2 y2 ↔
      (j < positions.length ∧
        0 < rectClipW (rectMvp vm pm wm) (positions.getD j ⟨0, 0, 0⟩) ∧
        min x1 x2 ≤ rectScreenX (rectMvp vm pm wm) (positions.getD j ⟨0, 0, 0⟩) ∧
        rectScreenX (rectMvp vm pm wm) (positions.getD j ⟨0, 0, 0⟩) ≤ max x1 x2 ∧
        min y1 y2 ≤ rectScreenY (rectMvp vm pm wm) (positions.getD j ⟨0, 0, 0⟩) ∧
        rectScreenY (rectMvp vm pm wm) (positions.getD j ⟨0, 0, 0⟩) ≤ max y1 y2)) := by
  constructor
  · simp only [getPointsInScreenRect]
    rw [min_comm x2 x1, max_comm x2 x1, min_comm y2 y1, max_comm y2 y1]
  · intro j
    rw [getPointsInScreenRect]
    rw [rectFold_mem positions (rectMvp vm pm wm)
      (min x1 x2) (max x1 x2) (min y1 y2) (max y1 y2)
      (List.range positions.length) [] j
      (fun i hi => List.mem_range.mp hi)]
    simp only [List.not_mem_nil, false_or, List.mem_range]
    rw [RectKeep]
    constructor
    · rintro ⟨hj, hc, hrect⟩
      exact ⟨hj, lt_of_not_le hc, hrect.1, hrect.2.1, hrect.2.2.1, hrect.2.2.2⟩
    · rintro ⟨hj, hc, h1, h2, h3, h4⟩
      exact ⟨hj, not_le.mpr hc, h1, h2, h3, h4⟩

/-- Witness for C7: one point projected by identity matrices into the unit
rectangle given with inverted corners. -/
theorem getPointsInScreenRect_spec_witness :
    getPointsInScreenRect [(⟨0, 0, -1⟩ : Vec3q)] idMat idMat idMat 1 1 0 0 =
      getPointsInScreenRect [(⟨0, 0, -1⟩ : Vec3q)] idMat idMat idMat 0 0 1 1 ∧
    (0 ∈ getPointsInScreenRect [(⟨0, 0, -1⟩ : Vec3q)] idMat idMat idMat 1 1 0 0 ↔
      (0 < [(⟨0, 0, -1⟩ : Vec3q)].length ∧
        0 < rectClipW (rectMvp idMat idMat idMat)
          ([(⟨0, 0, -1⟩ : Vec3q)].getD 0 ⟨0, 0, 0⟩) ∧
        min (1 : ℚ) 0 ≤ rectScreenX (rectMvp idMat idMat idMat)
          ([(⟨0, 0, -1⟩ : Vec3q)].getD 0 ⟨0, 0, 0⟩) ∧
        rectScreenX (rectMvp idMat idMat idMat)
          ([(⟨0, 0, -1⟩ : Vec3q)].getD 0 ⟨0, 0, 0⟩) ≤ max (1 : ℚ) 0 ∧
        min (1 : ℚ) 0 ≤ rectScreenY (rectMvp idMat idMat idMat)
          ([(⟨0, 0, -1⟩ : Vec3q)].getD 0 ⟨0, 0, 0⟩) ∧
        rectScreenY (rectMvp idMat idMat idMat)
          ([(⟨0, 0, -1⟩ : Vec3q)].getD 0 ⟨0, 0, 0⟩) ≤ max (1 : ℚ) 0)) :=
  ⟨(getPointsInScreenRect_spec [⟨0, 0, -1⟩] idMat idMat idMat 1 1 0 0).1,
    (getPointsInScreenRect_spec [⟨0, 0, -1⟩] idMat idMat idMat 1 1 0 0).2 0⟩

end Picker

namespace Picker

/-- The candidate entry contributed by cache index `i`, if any (`none` when
out of range or behind the ray origin). -/
def candOfIdx (positions : List Vec3q) (m : Mat4q)
    (rayOrigin rayDirection : Vec3q) (i : ℕ) : Option NearEntry :=
  match positions[i]? with
  | none => none
  | some localPos =>
    let wp := m.transformPoint localPos
    let proj := (wp.sub rayOrigin).dot rayDirection
    if proj < 0 then none
    else
      some ⟨i, wp.x, wp.y, wp.z,
        (rayOrigin.addScaled rayDirection proj).distSq wp⟩

/-- The pure buffer transition on one candidate entry: push while below
capacity (sorting when the buffer fills), then replace-the-worst. -/
def candStep (count : ℕ) (buf : List NearEntry) (e : NearEntry) :
    List NearEntry :=
  if buf.length < count then
    let buf2 := buf ++ [e]
    if buf2.length = count then sortNear buf2 else buf2
  else
    match buf.getLast? with
    | some worst =>
      if e.distSq < worst.distSq then sortNear (buf.dropLast ++ [e])
      else buf
    | none => buf

/-- The candidate list is the filterMap of per-index candidates. -/
theorem nearCandidates_eq_filterMap (positions : List Vec3q) (m : Mat4q)
    (o d : Vec3q) (idxs : List ℕ) :
    nearCandidates positions m o d idxs =
      idxs.filterMap (candOfIdx positions m o d) := by
  rw [nearCandidates]
  refine List.filterMap_congr ?_
  intro i _
  rw [candOfIdx]

/-- One index step of the scan agrees with the pure candidate transition. -/
theorem pickNearestStep_eq_cand (positions : List Vec3q) (m : Mat4q)
    (o d : Vec3q) (count : ℕ) (buf : List NearEntry) (i : ℕ) :
    pickNearestStep positions m o d count buf i =
      match candOfIdx positions m o d i with
      | none => buf
      | some e => candStep count buf e := by
  rw [pickNearestStep, candOfIdx]
  cases positions[i]? with
  | none => rfl
  | some localPos =>
    dsimp only
    by_cases hproj : ((m.transformPoint localPos).sub o).dot d < 0
    · rw [if_pos hproj, if_pos hproj]
    · rw [if_neg hproj, if_neg hproj]
      rfl

/-- Folding the scan over indices equals folding the pure transition over
the candidate list. -/
theorem foldl_pickNearestStep_eq (positions : List Vec3q) (m : Mat4q)
    (o d : Vec3q) (count : ℕ) :
    ∀ (idxs : List ℕ) (buf : List NearEntry),
      idxs.foldl (pickNearestStep positions m o d count) buf =
        (nearCandidates positions m o d idxs).foldl (candStep count) buf := by
  intro idxs
  induction idxs with
  | nil => intro buf; rfl
  | cons i idxs ih =>
    intro buf
    rw [List.foldl_cons, nearCandidates_eq_filterMap, List.filterMap_cons]
    rw [pickNearestStep_eq_cand]
    cases hc : candOfIdx positions m o d i with
    | none =>
      rw [ih buf, nearCandidates_eq_filterMap]
    | some e =>
      rw [List.foldl_cons, ih (candStep count buf e),
        nearCandidates_eq_filterMap]

/-- The buffer sort permutes its input. -/
theorem sortNear_perm (l : List NearEntry) : List.Perm (sortNear l) l :=
  List.perm_insertionSort nearLe l

/-- The buffer sort sorts by squared distance. -/
theorem sortNear_sorted (l : List NearEntry) :
    List.Pairwise nearLe (sortNear l) :=
  List.sorted_insertionSort nearLe l

/-- In a sorted buffer every entry is at most the last one. -/
theorem sorted_le_getLast :
    ∀ (l : List NearEntry), List.Pairwise nearLe l →
      ∀ w, l.getLast? = some w → ∀ x ∈ l, x.distSq ≤ w.distSq := by
  intro l
  induction l with
  | nil => intro _ w hw; cases hw
  | cons a l ih =>
    intro hp w hw x hx
    cases l with
    | nil =>
      rw [List.getLast?_singleton] at hw
      cases hw
      rw [List.mem_singleton.mp hx]
    | cons b l =>
      rw [List.getLast?_cons_cons] at hw
      have hpl := List.pairwise_cons.mp hp
      rcases List.mem_cons.mp hx with hx | hx
      · subst hx
        have hwmem : w ∈ b :: l := List.mem_of_getLast?_eq_some hw
        exact hpl.1 w hwmem
      · exact ih hpl.2 w hw x hx

end Picker

namespace Picker

/-- Invariant of the top-k buffer with respect to the processed candidates:
the buffer holds `min count seen` entries, is sorted once full, contains only
processed candidates, every processed candidate is retained or is no closer
than everything retained, and nothing is dropped before the buffer fills. -/
def BufInv (count : ℕ) (seen buf : List NearEntry) : Prop :=
  buf.length = min count seen.length ∧
  (count ≤ seen.length → List.Pairwise nearLe buf) ∧
  (∀ e ∈ buf, e ∈ seen) ∧
  (∀ c ∈ seen, c ∈ buf ∨ ∀ e ∈ buf, e.distSq ≤ c.distSq) ∧
  (buf.length < count → ∀ c ∈ seen, c ∈ buf)

/-- The pure buffer transition preserves the invariant. -/
theorem candStep_inv (count : ℕ) (seen buf : List NearEntry)
    (c : NearEntry) (h : BufInv count seen buf) :
    BufInv count (seen ++ [c]) (candStep count buf c) := by
  obtain ⟨hlen, hsort, hsub, hmin, hall⟩ := h
  rw [candStep, BufInv]
  by_cases hfull : buf.length < count
  · rw [if_pos hfull]
    have hseen : seen.length = buf.length := by omega
    by_cases hfill : (buf ++ [c]).length = count
    · rw [if_pos hfill]
      have hperm := sortNear_perm (buf ++ [c])
      refine ⟨?_, fun _ => sortNear_sorted _, ?_, ?_, ?_⟩
      · rw [hperm.length_eq]
        simp only [List.length_append, List.length_cons, List.length_nil]
        omega
      · intro e he
        rcases List.mem_append.mp (hperm.mem_iff.mp he) with he2 | he2
        · exact List.mem_append_left _ (hsub e he2)
        · exact List.mem_append_right _ he2
      · intro c2 hc2
        left
        rcases List.mem_append.mp hc2 with hc2 | hc2
        · exact hperm.mem_iff.mpr
            (List.mem_append_left _ (hall hfull c2 hc2))
        · rw [List.mem_singleton.mp hc2]
          exact hperm.mem_iff.mpr
            (List.mem_append_right _ (List.mem_singleton.mpr rfl))
      · intro hlt
        exfalso
        rw [hperm.length_eq] at hlt
        omega
    · rw [if_neg hfill]
      simp only [List.length_append, List.length_cons, List.length_nil]
        at hfill ⊢
      refine ⟨by omega, ?_, ?_, ?_, ?_⟩
      · intro hcount
        exfalso
        omega
      · intro e he
        rcases List.mem_append.mp he with he | he
        · exact List.mem_append_left _ (hsub e he)
        · exact List.mem_append_right _ he
      · intro c2 hc2
        left
        rcases List.mem_append.mp hc2 with hc2 | hc2
        · exact List.mem_append_left _ (hall hfull c2 hc2)
        · rw [List.mem_singleton.mp hc2]
          exact List.mem_append_right _ (List.mem_singleton.mpr rfl)
      · intro _ c2 hc2
        rcases List.mem_append.mp hc2 with hc2 | hc2
        · exact List.mem_append_left _ (hall hfull c2 hc2)
        · rw [List.mem_singleton.mp hc2]
          exact List.mem_append_right _ (List.mem_singleton.mpr rfl)
  · have hbuflen : buf.length = count := by omega
    have hcle : count ≤ seen.length := by omega
    have hsorted := hsort hcle
    rw [if_neg hfull]
    cases hworst : buf.getLast? with
    | none =>
      dsimp only
      have hbnil : buf = [] := List.getLast?_eq_none_iff.mp hworst
      refine ⟨?_, fun _ => hsorted, ?_, ?_, ?_⟩
      · simp only [List.length_append, List.length_cons, List.length_nil]
        omega
      · intro e he
        exact List.mem_append_left _ (hsub e he)
      · intro c2 hc2
        right
        intro e he
        rw [hbnil] at he
        exact absurd he (List.not_mem_nil e)
      · intro hlt2
        exfalso
        omega
    | some worst =>
      dsimp only
      have hdecomp : buf.dropLast ++ [worst] = buf :=
        List.dropLast_append_getLast? worst ((Option.mem_def).mpr hworst)
      have hwmax : ∀ x ∈ buf, x.distSq ≤ worst.distSq :=
        sorted_le_getLast buf hsorted worst hworst
      have hdl : buf.dropLast.length + 1 = count := by
        have hq := congrArg List.length hdecomp
        simp only [List.length_append, List.length_cons, List.length_nil]
          at hq
        omega
      by_cases hlt : c.distSq < worst.distSq
      · rw [if_pos hlt]
        have hperm := sortNear_perm (buf.dropLast ++ [c])
        refine ⟨?_, fun _ => sortNear_sorted _, ?_, ?_, ?_⟩
        · rw [hperm.length_eq]
          simp only [List.length_append, List.length_cons, List.length_nil]
          omega
        · intro e he
          rcases List.mem_append.mp (hperm.mem_iff.mp he) with he | he
          · have heb : e ∈ buf := by
              rw [← hdecomp]
              exact List.mem_append_left _ he
            exact List.mem_append_left _ (hsub e heb)
          · rw [List.mem_singleton.mp he]
            exact List.mem_append_right _ (List.mem_singleton.mpr rfl)
        · intro c2 hc2
          rcases List.mem_append.mp hc2 with hc2 | hc2
          · rcases hmin c2 hc2 with hin | hle2
            · have hin2 : c2 ∈ buf.dropLast ++ [worst] := by
                rw [hdecomp]
                exact hin
              rcases List.mem_append.mp hin2 with hdl2 | hw2
              · exact Or.inl
                  (hperm.mem_iff.mpr (List.mem_append_left _ hdl2))
              · right
                rw [List.mem_singleton.mp hw2]
                intro e he
                rcases List.mem_append.mp (hperm.mem_iff.mp he) with he | he
                · refine hwmax e ?_
                  rw [← hdecomp]
                  exact List.mem_append_left _ he
                · rw [List.mem_singleton.mp he]
                  exact le_of_lt hlt
            · right
              intro e he
              rcases List.mem_append.mp (hperm.mem_iff.mp he) with he | he
              · refine hle2 e ?_
                rw [← hdecomp]
                exact List.mem_append_left _ he
              · rw [List.mem_singleton.mp he]
                have hwc2 : worst.distSq ≤ c2.distSq :=
                  hle2 worst (List.mem_of_getLast?_eq_some hworst)
                exact le_of_lt (lt_of_lt_of_le hlt hwc2)
          · left
            rw [List.mem_singleton.mp hc2]
            exact hperm.mem_iff.mpr
              (List.mem_append_right _ (List.mem_singleton.mpr rfl))
        · intro hlt2
          exfalso
          rw [hperm.length_eq] at hlt2
          simp only [List.length_append, List.length_cons, List.length_nil]
            at hlt2
          omega
      · rw [if_neg hlt]
        refine ⟨?_, fun _ => hsorted, ?_, ?_, ?_⟩
        · simp only [List.length_append, List.length_cons, List.length_nil]
          omega
        · intro e he
          exact List.mem_append_left _ (hsub e he)
        · intro c2 hc2
          rcases List.mem_append.mp hc2 with hc2 | hc2
          · rcases hmin c2 hc2 with hin | hle2
            · exact Or.inl hin
            · exact Or.inr hle2
          · right
            rw [List.mem_singleton.mp hc2]
            intro e he
            exact le_trans (hwmax e he) (le_of_not_lt hlt)
        · intro hlt2
          exfalso
          omega

end Picker

namespace Picker

/-- The empty buffer satisfies the invariant for no processed candidates. -/
theorem bufInv_nil (count : ℕ) : BufInv count [] [] := by
  refine ⟨by simp, fun _ => List.Pairwise.nil, by simp, by simp, ?_⟩
  intro _ c hc
  exact absurd hc (List.not_mem_nil c)

/-- Folding the pure transition over candidates preserves the invariant. -/
theorem candFold_inv (count : ℕ) :
    ∀ (cs seen buf : List NearEntry),
      BufInv count seen buf →
      BufInv count (seen ++ cs) (cs.foldl (candStep count) buf) := by
  intro cs
  induction cs with
  | nil => intro seen buf h; simpa using h
  | cons c cs ih =>
    intro seen buf h
    have hstep := candStep_inv count seen buf c h
    have := ih (seen ++ [c]) (candStep count buf c) hstep
    simpa [List.append_assoc] using this

/-- C6: `pickNearest` returns (the index/position projections of) a buffer
sorted in non-decreasing perpendicular-distance order, whose length is
`min k (number of in-front candidates among the scanned indices)`, containing
only genuine candidates, and retaining the k closest: every candidate is
either in the buffer or no closer than everything in it (replace-the-worst
maintenance). -/
theorem pickNearest_spec (positions : List Vec3q) (m : Mat4q) (o d : Vec3q)
    (count : ℕ) (hc : 1 ≤ count) :
    pickNearest positions m o d count =
      (pickNearestEntries positions m o d count).map
        (fun e => (e.index, ⟨e.px, e.py, e.pz⟩)) ∧
    (pickNearestEntries positions m o d count).length =
      min count
        (nearCandidates positions m o d
          (rayScanIndices positions.length)).length ∧
    List.Pairwise nearLe (pickNearestEntries positions m o d count) ∧
    (∀ e ∈ pickNearestEntries positions m o d count,
      e ∈ nearCandidates positions m o d (rayScanIndices positions.length)) ∧
    (∀ c ∈ nearCandidates positions m o d (rayScanIndices positions.length),
      c ∈ pickNearestEntries positions m o d count ∨
      ∀ e ∈ pickNearestEntries positions m o d count,
        e.distSq ≤ c.distSq) := by
  have hfold := foldl_pickNearestStep_eq positions m o d count
    (rayScanIndices positions.length) []
  have hinv := candFold_inv count
    (nearCandidates positions m o d (rayScanIndices positions.length)) [] []
    (bufInv_nil count)
  rw [List.nil_append] at hinv
  obtain ⟨hlen, hsort, hsub, hmin, _⟩ := hinv
  have hent : pickNearestEntries positions m o d count =
      if ((nearCandidates positions m o d
            (rayScanIndices positions.length)).foldl
          (candStep count) []).length < count then
        sortNear ((nearCandidates positions m o d
            (rayScanIndices positions.length)).foldl (candStep count) [])
      else
        (nearCandidates positions m o d
            (rayScanIndices positions.length)).foldl (candStep count) [] := by
    simp only [pickNearestEntries, hfold]
  refine ⟨rfl, ?_, ?_, ?_, ?_⟩
  · rw [hent]
    split
    · rw [(sortNear_perm _).length_eq, hlen]
    · rw [hlen]
  · rw [hent]
    split
    · exact sortNear_sorted _
    · rename_i hnlt
      refine hsort ?_
      omega
  · rw [hent]
    split
    · intro e he
      exact hsub e ((sortNear_perm _).mem_iff.mp he)
    · exact hsub
  · rw [hent]
    split
    · intro c2 hc2
      rcases hmin c2 hc2 with hin | hle2
      · exact Or.inl ((sortNear_perm _).mem_iff.mpr hin)
      · right
        intro e he
        exact hle2 e ((sortNear_perm _).mem_iff.mp he)
    · exact hmin

/-- Witness for C6: two points, one in front and closer, one behind the ray
origin; the scan keeps only the in-front candidate. -/
theorem pickNearest_spec_witness :
    1 ≤ 2 ∧
    pickNearest [(⟨0, 0, 1⟩ : Vec3q), ⟨0, 0, -1⟩] idMat ⟨0, 0, 0⟩ ⟨0, 0, 1⟩ 2 =
      (pickNearestEntries [(⟨0, 0, 1⟩ : Vec3q), ⟨0, 0, -1⟩] idMat
          ⟨0, 0, 0⟩ ⟨0, 0, 1⟩ 2).map
        (fun e => (e.index, ⟨e.px, e.py, e.pz⟩)) ∧
    List.Pairwise nearLe (pickNearestEntries [(⟨0, 0, 1⟩ : Vec3q), ⟨0, 0, -1⟩]
      idMat ⟨0, 0, 0⟩ ⟨0, 0, 1⟩ 2) :=
  ⟨by decide,
    (pickNearest_spec [⟨0, 0, 1⟩, ⟨0, 0, -1⟩] idMat ⟨0, 0, 0⟩ ⟨0, 0, 1⟩ 2
      (by decide)).1,
    (pickNearest_spec [⟨0, 0, 1⟩, ⟨0, 0, -1⟩] idMat ⟨0, 0, 0⟩ ⟨0, 0, 1⟩ 2
      (by decide)).2.2.1⟩

end Picker

namespace NormalEst

/-- A 3x3 matrix with explicit entries (the `cov`, `adj`, `inv` arrays). -/
structure M3 where
  a00 : ℚ
  a01 : ℚ
  a02 : ℚ
  a10 : ℚ
  a11 : ℚ
  a12 : ℚ
  a20 : ℚ
  a21 : ℚ
  a22 : ℚ
deriving DecidableEq

/-- Matrix-vector product. -/
def M3.mulVec (c : M3) (v : Vec3q) : Vec3q :=
  ⟨c.a00 * v.x + c.a01 * v.y + c.a02 * v.z,
   c.a10 * v.x + c.a11 * v.y + c.a12 * v.z,
   c.a20 * v.x + c.a21 * v.y + c.a22 * v.z⟩

/-- Determinant, as expanded in the source. -/
def M3.det (c : M3) : ℚ :=
  c.a00 * (c.a11 * c.a22 - c.a12 * c.a21) -
    c.a01 * (c.a10 * c.a22 - c.a12 * c.a20) +
    c.a02 * (c.a10 * c.a21 - c.a11 * c.a20)

/-- The inverse via the adjugate divided by the determinant, entry for entry
as written in the source. -/
def M3.invOf (c : M3) (det : ℚ) : M3 :=
  ⟨(c.a11 * c.a22 - c.a12 * c.a21) / det,
   (c.a02 * c.a21 - c.a01 * c.a22) / det,
   (c.a01 * c.a12 - c.a02 * c.a11) / det,
   (c.a12 * c.a20 - c.a10 * c.a22) / det,
   (c.a00 * c.a22 - c.a02 * c.a20) / det,
   (c.a02 * c.a10 - c.a00 * c.a12) / det,
   (c.a10 * c.a21 - c.a11 * c.a20) / det,
   (c.a01 * c.a20 - c.a00 * c.a21) / det,
   (c.a00 * c.a11 - c.a01 * c.a10) / det⟩

/-- Cross product of two vectors. -/
def crossV (a b : Vec3q) : Vec3q :=
  ⟨a.y * b.z - a.z * b.y, a.z * b.x - a.x * b.z, a.x * b.y - a.y * b.x⟩

/-- Squared Euclidean norm (the argument of `Math.sqrt` in the source). -/
def normSq (v : Vec3q) : ℚ := v.x ^ 2 + v.y ^ 2 + v.z ^ 2

/-- L1 difference used as the convergence measure. -/
def l1diff (a b : Vec3q) : ℚ := |a.x - b.x| + |a.y - b.y| + |a.z - b.z|

/-- Convergence tolerance of the iterations. -/
def iterTolerance : ℚ := 1 / 10 ^ 8

/-- Power-iteration loop shared by both branches: multiply, break when the
length underflows (keeping the previous vector), normalize, break on small
L1 change (keeping the new vector). `sqrtQ` abstracts `Math.sqrt`, which has
no exact rational counterpart; every theorem below holds for any `sqrtQ`. -/
def iterLoop (a : M3) (sqrtQ : ℚ → ℚ) : ℕ → Vec3q → Vec3q
  | 0, v => v
  | n + 1, v =>
    let vNew := a.mulVec v
    let len := sqrtQ (normSq vNew)
    if len < iterTolerance then v
    else
      let vN : Vec3q := ⟨vNew.x / len, vNew.y / len, vNew.z / len⟩
      if l1diff v vN < iterTolerance then vN
      else iterLoop a sqrtQ n vN

/-- Neighborhood gathering: for each in-range selected index, every cache
point within `neighborRadius` of its world position is appended (in world
space), duplicates included, exactly as the nested source loops do. -/
def gatherNeighborhood (selectedIndices : List ℤ) (allPositions : List Vec3q)
    (worldMatrix : Mat4q) (neighborRadius : ℚ) : List Vec3q :=
  selectedIndices.foldl (fun acc pointIndex =>
    if pointIndex < 0 ∨ (allPositions.length : ℤ) ≤ pointIndex then acc
    else
      let centerPoint := worldMatrix.transformPoint
        (allPositions.getD pointIndex.toNat ⟨0, 0, 0⟩)
      acc ++ allPositions.filterMap (fun q =>
        let pointPos := worldMatrix.transformPoint q
        if 0 ≤ neighborRadius ∧
            Vec3q.distSq centerPoint pointPos ≤ neighborRadius ^ 2 then
          some pointPos
        else none)) []

/-- Mean of the gathered points. -/
def meanOf (pts : List Vec3q) : Vec3q :=
  ⟨(pts.map (fun p => p.x)).sum / pts.length,
   (pts.map (fun p => p.y)).sum / pts.length,
   (pts.map (fun p => p.z)).sum / pts.length⟩

/-- Covariance matrix of the centered points, divided by the point count. -/
def covOf (pts : List Vec3q) : M3 :=
  let mean := meanOf pts
  let centered := pts.map (fun p => p.sub mean)
  let n : ℚ := pts.length
  ⟨(centered.map (fun p => p.x * p.x)).sum / n,
   (centered.map (fun p => p.x * p.y)).sum / n,
   (centered.map (fun p => p.x * p.z)).sum / n,
   (centered.map (fun p => p.y * p.x)).sum / n,
   (centered.map (fun p => p.y * p.y)).sum / n,
   (centered.map (fun p => p.y * p.z)).sum / n,
   (centered.map (fun p => p.z * p.x)).sum / n,
   (centered.map (fun p => p.z * p.y)).sum / n,
   (centered.map (fun p => p.z * p.z)).sum / n⟩

/-- computePCANormalFromPoints: neighborhood gathering, covariance, inverse
power iteration (or the singular fallback: dominant eigenvector, a
Gram-Schmidt second axis and their cross product), and the final sign flip
towards the reference axis (0, 0, 1). -/
def computePCANormalFromPoints (sqrtQ : ℚ → ℚ) (selectedIndices : List ℤ)
    (allPositions : List Vec3q) (worldMatrix : Mat4q)
    (neighborRadius : ℚ) : Option Vec3q :=
  if selectedIndices.length < 3 ∨ allPositions.length = 0 then none
  else
    let allPoints := gatherNeighborhood selectedIndices allPositions
      worldMatrix neighborRadius
    if allPoints.length < 3 then none
    else
      let cov := covOf allPoints
      let det := cov.det
      let v :=
        if |det| < 1 / 10 ^ 10 then
          let v1 := iterLoop cov sqrtQ 50 ⟨1, 0, 0⟩
          let dot12 := v1.x * 0 + v1.y * 1 + v1.z * 0
          let v2 : Vec3q := ⟨0 - dot12 * v1.x, 1 - dot12 * v1.y,
            0 - dot12 * v1.z⟩
          let len2 := sqrtQ (normSq v2)
          let v2n : Vec3q :=
            if iterTolerance < len2 then
              ⟨v2.x / len2, v2.y / len2, v2.z / len2⟩
            else v2
          crossV v1 v2n
        else
          iterLoop (cov.invOf det) sqrtQ 50 ⟨0, 0, 1⟩
      let dot := v.x * 0 + v.y * 0 + v.z * 1
      some (if dot < 0 then ⟨-v.x, -v.y, -v.z⟩ else v)


/-- The final sign flip makes the z component non-negative. -/
theorem flip_z_nonneg (w : Vec3q) :
    0 ≤ (if w.x * 0 + w.y * 0 + w.z * 1 < 0 then
      (⟨-w.x, -w.y, -w.z⟩ : Vec3q) else w).z := by
  split
  · rename_i h
    simp only [mul_zero, zero_add, mul_one] at h
    simp only
    linarith
  · rename_i h
    simp only [mul_zero, zero_add, mul_one] at h
    exact not_lt.mp h

/-- C8: the estimator returns `none` exactly when fewer than 3 indices are
supplied, the cache is empty, or fewer than 3 points are gathered; and every
returned normal has non-negative dot product with the reference axis
(0, 0, 1), i.e. a non-negative z component — for any square-root function. -/
theorem computePCANormalFromPoints_spec (sqrtQ : ℚ → ℚ)
    (selectedIndices : List ℤ) (allPositions : List Vec3q)
    (worldMatrix : Mat4q) (neighborRadius : ℚ) :
    (computePCANormalFromPoints sqrtQ selectedIndices allPositions
        worldMatrix neighborRadius = none ↔
      (selectedIndices.length < 3 ∨ allPositions.length = 0 ∨
        (gatherNeighborhood selectedIndices allPositions worldMatrix
            neighborRadius).length < 3)) ∧
    (∀ v, computePCANormalFromPoints sqrtQ selectedIndices allPositions
        worldMatrix neighborRadius = some v → 0 ≤ v.z) := by
  rw [computePCANormalFromPoints]
  by_cases hguard : selectedIndices.length < 3 ∨ allPositions.length = 0
  · rw [if_pos hguard]
    refine ⟨?_, ?_⟩
    · simp only [true_iff]
      rcases hguard with h | h
      · exact Or.inl h
      · exact Or.inr (Or.inl h)
    · intro v hv
      cases hv
  · rw [if_neg hguard]
    by_cases hgather : (gatherNeighborhood selectedIndices allPositions
        worldMatrix neighborRadius).length < 3
    · rw [if_pos hgather]
      refine ⟨?_, ?_⟩
      · simp only [true_iff]
        exact Or.inr (Or.inr hgather)
      · intro v hv
        cases hv
    · rw [if_neg hgather]
      constructor
      · refine iff_of_false (fun hcon => Option.noConfusion hcon) ?_
        push_neg at hguard
        rintro (h | h | h)
        · omega
        · exact hguard.2 h
        · exact hgather h
      · intro v hv
        simp only [Option.some.injEq] at hv
        subst hv
        exact flip_z_nonneg _

end NormalEst

namespace NormalEst

/-- Concrete three-point cache with every point at the origin. -/
def pcaCache : List Vec3q := [⟨0, 0, 0⟩, ⟨0, 0, 0⟩, ⟨0, 0, 0⟩]

/-- The nine gathered world positions for the witness run. -/
def pcaGathered : List Vec3q :=
  [⟨0, 0, 0⟩, ⟨0, 0, 0⟩, ⟨0, 0, 0⟩, ⟨0, 0, 0⟩, ⟨0, 0, 0⟩, ⟨0, 0, 0⟩,
   ⟨0, 0, 0⟩, ⟨0, 0, 0⟩, ⟨0, 0, 0⟩]

/-- Witness for C8: an empty selection yields `none`; a degenerate
all-coincident neighborhood takes the singular fallback and returns the
reference axis, whose z component is non-negative. -/
theorem computePCANormalFromPoints_spec_witness :
    computePCANormalFromPoints (fun _ => 0) [] [] Picker.idMat (1 / 100)
      = none ∧
    computePCANormalFromPoints (fun _ => 0) [0, 1, 2] pcaCache Picker.idMat 1
      = some ⟨0, 0, 1⟩ ∧
    (0 : ℚ) ≤ (⟨0, 0, 1⟩ : Vec3q).z := by
  have ht0 : Int.toNat 0 = 0 := rfl
  have ht1 : Int.toNat 1 = 1 := rfl
  have ht2 : Int.toNat 2 = 2 := rfl
  have hgath : gatherNeighborhood [0, 1, 2] pcaCache Picker.idMat 1 =
      pcaGathered := by
    norm_num [ht0, ht1, ht2, gatherNeighborhood, pcaCache, pcaGathered, Picker.idMat,
      Mat4q.transformPoint, Vec3q.distSq, List.getD, List.foldl_cons,
      List.foldl_nil, List.filterMap, Int.toNat_ofNat,
      List.getElem_cons_succ, List.getElem_cons_zero]
  have hcov : covOf pcaGathered = ⟨0, 0, 0, 0, 0, 0, 0, 0, 0⟩ := by
    norm_num [covOf, meanOf, pcaGathered, Vec3q.sub, List.sum_cons,
      List.sum_nil]
  have hiter : iterLoop ⟨0, 0, 0, 0, 0, 0, 0, 0, 0⟩ (fun _ => 0) 50
      ⟨1, 0, 0⟩ = ⟨1, 0, 0⟩ := by
    rw [show (50 : ℕ) = 49 + 1 from rfl, iterLoop]
    norm_num [M3.mulVec, normSq, iterTolerance]
  have heval : computePCANormalFromPoints (fun _ => 0) [0, 1, 2] pcaCache
      Picker.idMat 1 = some ⟨0, 0, 1⟩ := by
    rw [computePCANormalFromPoints]
    rw [if_neg (by norm_num [pcaCache])]
    rw [hgath]
    rw [if_neg (by norm_num [pcaGathered])]
    rw [hcov]
    norm_num [M3.det, hiter, normSq, iterTolerance, crossV]
  refine ⟨?_, heval,
    (computePCANormalFromPoints_spec (fun _ => 0) [0, 1, 2] pcaCache
      Picker.idMat 1).2 ⟨0, 0, 1⟩ heval⟩
  exact (computePCANormalFromPoints_spec (fun _ => 0) [] [] Picker.idMat
    (1 / 100)).1.mpr (Or.inl (by decide))

end NormalEst

namespace CentersOverlay

/-- The CPU depth-buffer raster resolution (`res = 512`). -/
def cellRes : ℕ := 512

/-- One projected-splat record of pass 1 (`{pixel, depth, alpha, id}`). -/
structure ProjEntry where
  pixel : ℕ
  depth : ℚ
  alpha : ℚ
  id : ℕ
deriving DecidableEq

/-- Comparison of the front-to-back sort (`sort((a, b) => a.depth - b.depth)`). -/
def projLe (a b : ProjEntry) : Prop := a.depth ≤ b.depth

instance : DecidableRel projLe :=
  fun a b => inferInstanceAs (Decidable (a.depth ≤ b.depth))

/-- Inputs of one `computeFiltering` call: the position snapshot, the
optional opacities, the camera matrices (`viewMatrix` is the inverted camera
world transform, inverted by the caller), clip range, threshold fraction and
the capacity of the per-splat state texture. -/
structure FilterCtx where
  positions : List Vec3q
  opacities : Option (List ℚ)
  viewMatrix : Mat4q
  projMatrix : Mat4q
  gsplatWorldMatrix : Mat4q
  near : ℚ
  far : ℚ
  depthThreshold : ℚ
  texCapacity : ℕ

/-- The model-view matrix `mul2(viewMatrix, gsplatWorldMatrix)`. -/
def FilterCtx.mv (ctx : FilterCtx) : Mat4q :=
  Mat4q.mul2 ctx.viewMatrix ctx.gsplatWorldMatrix

/-- The model-view-projection matrix `mul2(projMatrix, mvMatrix)`. -/
def FilterCtx.mvp (ctx : FilterCtx) : Mat4q :=
  Mat4q.mul2 ctx.projMatrix ctx.mv

/-- The number of processed splats, capped by the state-texture size. -/
def FilterCtx.numSplats (ctx : FilterCtx) : ℕ :=
  min ctx.positions.length ctx.texCapacity

/-- Position of splat `i`. -/
def FilterCtx.posAt (ctx : FilterCtx) (i : ℕ) : Vec3q :=
  ctx.positions.getD i ⟨0, 0, 0⟩

/-- Linear view-space depth `-viewZ` of splat `i`. -/
def FilterCtx.depthOf (ctx : FilterCtx) (i : ℕ) : ℚ :=
  -(ctx.mv 2 * (ctx.posAt i).x + ctx.mv 6 * (ctx.posAt i).y +
    ctx.mv 10 * (ctx.posAt i).z + ctx.mv 14)

/-- Clamped per-splat opacity, defaulting to 1 without an opacity array. -/
def FilterCtx.alphaOf (ctx : FilterCtx) (i : ℕ) : ℚ :=
  match ctx.opacities with
  | some os => if i < os.length then max 0 (min 1 (os.getD i 0)) else 1
  | none => 1

/-- Clip-space w of splat `i`. -/
def FilterCtx.clipWOf (ctx : FilterCtx) (i : ℕ) : ℚ :=
  ctx.mvp 3 * (ctx.posAt i).x + ctx.mvp 7 * (ctx.posAt i).y +
    ctx.mvp 11 * (ctx.posAt i).z + ctx.mvp 15

/-- Clip-space x of splat `i`. -/
def FilterCtx.clipXOf (ctx : FilterCtx) (i : ℕ) : ℚ :=
  ctx.mvp 0 * (ctx.posAt i).x + ctx.mvp 4 * (ctx.posAt i).y +
    ctx.mvp 8 * (ctx.posAt i).z + ctx.mvp 12

/-- Clip-space y of splat `i`. -/
def FilterCtx.clipYOf (ctx : FilterCtx) (i : ℕ) : ℚ :=
  ctx.mvp 1 * (ctx.posAt i).x + ctx.mvp 5 * (ctx.posAt i).y +
    ctx.mvp 9 * (ctx.posAt i).z + ctx.mvp 13

/-- Validity of splat `i`: the negation of the pass-1 skip condition
`clipW <= 0 || depth <= 0 || depth < near || depth > far`. -/
def FilterCtx.validOf (ctx : FilterCtx) (i : ℕ) : Prop :=
  ¬(ctx.clipWOf i ≤ 0 ∨ ctx.depthOf i ≤ 0 ∨ ctx.depthOf i < ctx.near ∨
    ctx.far < ctx.depthOf i)

instance validOfDec (ctx : FilterCtx) (i : ℕ) :
    Decidable (ctx.validOf i) := by
  unfold FilterCtx.validOf
  infer_instance

/-- Raster column `Math.floor((ndcX * 0.5 + 0.5) * res)`. -/
def FilterCtx.sxOf (ctx : FilterCtx) (i : ℕ) : ℤ :=
  ⌊(ctx.clipXOf i / ctx.clipWOf i * (1 / 2) + 1 / 2) * cellRes⌋

/-- Raster row `Math.floor((1 - (ndcY * 0.5 + 0.5)) * res)`. -/
def FilterCtx.syOf (ctx : FilterCtx) (i : ℕ) : ℤ :=
  ⌊(1 - (ctx.clipYOf i / ctx.clipWOf i * (1 / 2) + 1 / 2)) * cellRes⌋

/-- The raster cell of splat `i` when inside the grid bound check
`sx >= 0 && sx < res && sy >= 0 && sy < res` (`pixel = sy * res + sx`). -/
def FilterCtx.cellOf (ctx : FilterCtx) (i : ℕ) : Option ℕ :=
  if 0 ≤ ctx.sxOf i ∧ ctx.sxOf i < cellRes ∧ 0 ≤ ctx.syOf i ∧
      ctx.syOf i < cellRes then
    some (ctx.syOf i * cellRes + ctx.sxOf i).toNat
  else none

/-- The `perSplatDepth` array: the depth for valid splats, `-1` otherwise. -/
def FilterCtx.perSplatDepth (ctx : FilterCtx) (i : ℕ) : ℚ :=
  if ctx.validOf i then ctx.depthOf i else -1

/-- Pass 1: the projected list of valid splats that land inside the grid. -/
def FilterCtx.projectedList (ctx : FilterCtx) : List ProjEntry :=
  (List.range ctx.numSplats).filterMap (fun i =>
    if ctx.validOf i then
      match ctx.cellOf i with
      | some c => some ⟨c, ctx.depthOf i, ctx.alphaOf i, i⟩
      | none => none
    else none)

/-- Pass 2: front-to-back depth sort (a stable comparison sort). -/
def FilterCtx.sortedList (ctx : FilterCtx) : List ProjEntry :=
  ctx.projectedList.insertionSort projLe

/-- Pass-3 accumulators, one slot per raster cell. -/
structure AccState where
  depthAccum : ℕ → ℚ
  weightAccum : ℕ → ℚ
  transmittance : ℕ → ℚ

/-- One pass-3 step: early-terminate below transmittance `1e-4`, otherwise
accumulate `w = alpha * T` and attenuate the transmittance. -/
def accStep (st : AccState) (e : ProjEntry) : AccState :=
  let tAcc := st.transmittance e.pixel
  if tAcc < 1 / 10 ^ 4 then st
  else
    let w := e.alpha * tAcc
    ⟨fun j => if j = e.pixel then st.depthAccum j + w * e.depth
      else st.depthAccum j,
     fun j => if j = e.pixel then st.weightAccum j + w else st.weightAccum j,
     fun j => if j = e.pixel then tAcc * (1 - e.alpha)
      else st.transmittance j⟩

/-- Zero accumulators with transmittance 1. -/
def initAcc : AccState := ⟨fun _ => 0, fun _ => 0, fun _ => 1⟩

/-- Pass 3: fold the sorted list through the accumulator. -/
def FilterCtx.accum (ctx : FilterCtx) : AccState :=
  ctx.sortedList.foldl accStep initAcc

/-- Normalization: the expected surface depth per cell, `none` standing for
the `Infinity` no-surface sentinel below the `1e-10` weight guard. -/
def FilterCtx.surfaceDepth (ctx : FilterCtx) (c : ℕ) : Option ℚ :=
  if 1 / 10 ^ 10 < ctx.accum.weightAccum c then
    some (ctx.accum.depthAccum c / ctx.accum.weightAccum c)
  else none

/-- The world-space threshold `depthThreshold * (far - near)`. -/
def FilterCtx.thresholdWorld (ctx : FilterCtx) : ℚ :=
  ctx.depthThreshold * (ctx.far - ctx.near)

/-- Pass 4: splat `i` is filtered when its recorded depth is positive, its
clip w is positive, its re-derived cell is inside the grid, that cell has a
finite surface depth and the splat lies behind it by more than the
threshold (`sd < Infinity && depth > sd + thresholdWorld`). -/
def FilterCtx.filtered (ctx : FilterCtx) (i : ℕ) : Bool :=
  if 0 < ctx.perSplatDepth i then
    if 0 < ctx.clipWOf i then
      match ctx.cellOf i with
      | some c =>
        match ctx.surfaceDepth c with
        | some sd => decide (sd + ctx.thresholdWorld < ctx.perSplatDepth i)
        | none => false
      | none => false
    else false
  else false

end CentersOverlay

namespace CentersOverlay

/-- A cell all of whose accumulated entries have zero alpha keeps zero
accumulated weight through the whole pass-3 fold. -/
theorem accum_weight_zero :
    ∀ (entries : List ProjEntry) (st : AccState) (c : ℕ),
      (∀ e ∈ entries, e.pixel = c → e.alpha = 0) → st.weightAccum c = 0 →
      (entries.foldl accStep st).weightAccum c = 0 := by
  intro entries
  induction entries with
  | nil => intro st c _ h; simpa using h
  | cons e entries ih =>
    intro st c hz h
    rw [List.foldl_cons]
    refine ih _ c (fun x hx hp => hz x (List.mem_cons_of_mem e hx) hp) ?_
    rw [accStep]
    split
    · exact h
    · dsimp only
      by_cases hp : c = e.pixel
      · rw [if_pos hp]
        have ha : e.alpha = 0 := hz e (List.mem_cons_self e entries) hp.symm
        rw [h, ha]
        ring
      · rw [if_neg hp]
        exact h

/-- The validity predicate spelled out. -/
theorem validOf_iff (ctx : FilterCtx) (i : ℕ) :
    ctx.validOf i ↔
      (0 < ctx.clipWOf i ∧ 0 < ctx.depthOf i ∧ ctx.near ≤ ctx.depthOf i ∧
        ctx.depthOf i ≤ ctx.far) := by
  rw [FilterCtx.validOf]
  push_neg
  simp only [not_le, not_lt]

/-- C2: a splat is marked filtered exactly when it passes the validity
checks (positive clip w, positive depth, depth within the clip range, cell
inside the raster), its cell's accumulated weight is above the `1e-10`
guard — so the cell's surface depth is the finite value
`depthAccum / weightAccum` — and its view depth exceeds that surface depth
plus `threshold * (far - near)`; moreover a cell whose projected entries
all have opacity 0 has accumulated weight 0 and the no-surface sentinel,
and no splat mapped to it is ever filtered. -/
theorem computeFiltering_spec (ctx : FilterCtx) (i : ℕ)
    (hi : i < ctx.numSplats) :
    (ctx.filtered i = true ↔
      (0 < ctx.clipWOf i ∧ 0 < ctx.depthOf i ∧ ctx.near ≤ ctx.depthOf i ∧
        ctx.depthOf i ≤ ctx.far ∧
        ∃ c, ctx.cellOf i = some c ∧
          1 / 10 ^ 10 < ctx.accum.weightAccum c ∧
          ctx.accum.depthAccum c / ctx.accum.weightAccum c +
            ctx.depthThreshold * (ctx.far - ctx.near) < ctx.depthOf i)) ∧
    (∀ c : ℕ, (∀ e ∈ ctx.projectedList, e.pixel = c → e.alpha = 0) →
      ctx.accum.weightAccum c = 0 ∧ ctx.surfaceDepth c = none ∧
      (ctx.cellOf i = some c → ctx.filtered i = false)) := by
  have hzero : ∀ c : ℕ,
      (∀ e ∈ ctx.projectedList, e.pixel = c → e.alpha = 0) →
      ctx.accum.weightAccum c = 0 ∧ ctx.surfaceDepth c = none := by
    intro c hz
    have hz2 : ∀ e ∈ ctx.sortedList, e.pixel = c → e.alpha = 0 := by
      intro e he
      exact hz e ((List.perm_insertionSort projLe ctx.projectedList).mem_iff.mp
        he)
    have hw : ctx.accum.weightAccum c = 0 :=
      accum_weight_zero ctx.sortedList initAcc c hz2 rfl
    refine ⟨hw, ?_⟩
    rw [FilterCtx.surfaceDepth, hw, if_neg (by norm_num)]
  constructor
  · by_cases hval : ctx.validOf i
    · have hps : ctx.perSplatDepth i = ctx.depthOf i :=
        if_pos hval
      obtain ⟨hw0, hd0, hnear, hfar⟩ := (validOf_iff ctx i).mp hval
      rw [FilterCtx.filtered, hps, if_pos hd0, if_pos hw0]
      cases hcell : ctx.cellOf i with
      | none =>
        refine iff_of_false (by simp) ?_
        rintro ⟨_, _, _, _, c, hc, _⟩
        exact Option.noConfusion hc
      | some c =>
        dsimp only
        cases hsd : ctx.surfaceDepth c with
        | none =>
          refine iff_of_false (by simp) ?_
          rintro ⟨_, _, _, _, cg, hcg, hguard, _⟩
          cases Option.some.inj hcg
          rw [FilterCtx.surfaceDepth, if_pos hguard] at hsd
          exact Option.noConfusion hsd
        | some sd =>
          have hguard : 1 / 10 ^ 10 < ctx.accum.weightAccum c := by
            by_contra hcon
            rw [FilterCtx.surfaceDepth, if_neg hcon] at hsd
            exact Option.noConfusion hsd
          have hsdval : sd =
              ctx.accum.depthAccum c / ctx.accum.weightAccum c := by
            rw [FilterCtx.surfaceDepth, if_pos hguard] at hsd
            exact (Option.some.inj hsd).symm
          simp only [decide_eq_true_eq]
          constructor
          · intro hlt
            refine ⟨hw0, hd0, hnear, hfar, c, rfl, hguard, ?_⟩
            rw [← hsdval]
            rw [FilterCtx.thresholdWorld] at hlt
            exact hlt
          · rintro ⟨_, _, _, _, cg, hcg, _, hlt⟩
            cases Option.some.inj hcg
            rw [FilterCtx.thresholdWorld, hsdval]
            exact hlt
    · have hps : ctx.perSplatDepth i = -1 :=
        if_neg hval
      rw [FilterCtx.filtered, hps, if_neg (by norm_num)]
      refine iff_of_false (by simp) ?_
      rintro ⟨hw0, hd0, hnear, hfar, _⟩
      exact hval ((validOf_iff ctx i).mpr ⟨hw0, hd0, hnear, hfar⟩)
  · intro c hz
    obtain ⟨hw, hsd⟩ := hzero c hz
    refine ⟨hw, hsd, ?_⟩
    intro hcell
    simp [FilterCtx.filtered, hcell, hsd]

/-- Concrete filtering context: one point, no opacities, identity matrices. -/
def ctxW : FilterCtx :=
  ⟨[⟨0, 0, 0⟩], none, Picker.idMat, Picker.idMat, Picker.idMat,
    1 / 10, 100, 1 / 100, 4⟩

/-- Witness for C2: the single splat sits at depth 0, so the projected list
is empty and every cell keeps zero weight and the no-surface sentinel. -/
theorem computeFiltering_spec_witness :
    0 < ctxW.numSplats ∧ ctxW.accum.weightAccum 0 = 0 ∧
    ctxW.surfaceDepth 0 = none := by
  have hproj : ctxW.projectedList = [] := by
    norm_num [FilterCtx.projectedList, FilterCtx.numSplats, ctxW,
      FilterCtx.validOf, FilterCtx.depthOf, FilterCtx.clipWOf,
      FilterCtx.posAt, FilterCtx.mv, FilterCtx.mvp, Mat4q.mul2, Picker.idMat,
      List.filterMap]
  have hz : ∀ e ∈ ctxW.projectedList, e.pixel = 0 → e.alpha = 0 := by
    intro e he
    rw [hproj] at he
    exact absurd he (List.not_mem_nil e)
  have hi : 0 < ctxW.numSplats := by
    norm_num [FilterCtx.numSplats, ctxW]
  have h2 := (computeFiltering_spec ctxW 0 hi).2 0 hz
  exact ⟨hi, h2.1, h2.2.1⟩

end CentersOverlay
